import Mathlib

/-!
Shallow embedding of the reasoning engine in
src/lexikon/backend/services/reasoning.py (class ReasoningEngine).

The Relation Store is modelled as the list of stored relation rows, in
database order; `db.query(TermRelation).filter(...).all()` becomes a
`List.filter` over that list.  Floating point confidences are modelled as
rationals; the Python call round(x, 3) becomes `round3` below.  Mutable state
(the shared `visited` set, the per-rule `inferred` accumulator) is passed
explicitly.  Recursive traversals are written with an explicit fuel
argument: every recursive call of the Python `traverse` /
`find_equivalents` increases `depth` by exactly 1 and the guard stops as
soon as `depth > max_depth`, so with initial fuel `max_depth.toNat + 1`
at initial depth 1 the fuel can reach 0 only when `depth > max_depth`
already holds, where the fuel-0 branch returns the state unchanged exactly
like the guard does: the fuel never changes the semantics.
-/

namespace Lexikon

/-- A stored relation row (db.postgres.TermRelation).  Only the columns the
reasoning engine reads are modelled; `id`, `created_by`, `created_at` and
`metadata` are never consumed by the engine. -/
structure TermRelation where
  source_term_id : String
  target_term_id : String
  relation_type : String
  confidence : ℚ
deriving DecidableEq, Repr

/-- The Relation Store: the stored rows, in database order. -/
abbrev Store := List TermRelation

/-- ReasoningEngine.CONFIDENCE_DECAY. -/
def CONFIDENCE_DECAY : ℚ := 9 / 10

/-- Round to the nearest integer, ties to the even integer (the rounding
performed by the Python builtin round). -/
def round_half_even (q : ℚ) : ℤ :=
  if Int.fract q < 1 / 2 then ⌊q⌋
  else if 1 / 2 < Int.fract q then ⌊q⌋ + 1
  else if ⌊q⌋ % 2 = 0 then ⌊q⌋ else ⌊q⌋ + 1

/-- The Python call round(x, 3): round to 3 decimal places. -/
def round3 (q : ℚ) : ℚ := (round_half_even (q * 1000) : ℚ) / 1000

/-- One inferred relation dict, as appended by the rules. -/
structure Derived where
  source_term_id : String
  target_term_id : String
  relation_type : String
  confidence : ℚ
  rule : String
  depth : ℤ
deriving DecidableEq, Repr

/-- The transitive_relations set: broader, narrower, part_of, has_part, related. -/
def transitive_relations : List String :=
  ["broader", "narrower", "part_of", "has_part", "related"]

/-- The symmetric_relations set: equivalent, related. -/
def symmetric_relations : List String := ["equivalent", "related"]

/-- `db.query(TermRelation).filter(source == id, type.in_(types)).all()`. -/
def outgoingIn (db : Store) (termId : String) (types : List String) :
    List TermRelation :=
  db.filter fun r => decide (r.source_term_id = termId ∧ r.relation_type ∈ types)

/-- `db.query(TermRelation).filter(target == id, type.in_(types)).all()`. -/
def incomingIn (db : Store) (termId : String) (types : List String) :
    List TermRelation :=
  db.filter fun r => decide (r.target_term_id = termId ∧ r.relation_type ∈ types)

/-- `db.query(TermRelation).filter(target == id).all()`. -/
def incomingAll (db : Store) (termId : String) : List TermRelation :=
  db.filter fun r => decide (r.target_term_id = termId)

/-- The mutable state threaded through a recursive rule: the (shared)
`visited` set and the rule-local `inferred` list. -/
structure TState where
  visited : List String
  inferred : List Derived
deriving DecidableEq, Repr

/-- The `for rel in relations:` loop body of `traverse` in
`_apply_transitive_rule`; `recurse` is the recursive call at `depth+1`. -/
def traverse_edges (recurse : String → ℤ → ℚ → TState → TState)
    (seed : String) (threshold : ℚ) :
    List TermRelation → ℤ → ℚ → TState → TState
  | [], _, _, st => st
  | rel :: rest, depth, acc, st =>
    let nc := acc * rel.confidence * CONFIDENCE_DECAY
    let st1 := if threshold ≤ nc then
        ⟨st.visited, st.inferred ++
          [⟨seed, rel.target_term_id, rel.relation_type, round3 nc,
            "transitive", depth⟩]⟩
      else st
    let st2 := recurse rel.target_term_id (depth + 1) nc st1
    traverse_edges recurse seed threshold rest depth acc st2

/-- `traverse(current_id, depth, accumulated_confidence)` of
`_apply_transitive_rule`, with the fuel discipline described above. -/
def traverse (db : Store) (seed : String) (max_depth : ℤ) (threshold : ℚ) :
    Nat → String → ℤ → ℚ → TState → TState
  | 0, _, _, _, st => st
  | fuel + 1, current, depth, acc, st =>
    if max_depth < depth ∨ current ∈ st.visited then st
    else
      traverse_edges (traverse db seed max_depth threshold fuel) seed threshold
        (outgoingIn db current transitive_relations) depth acc
        ⟨current :: st.visited, st.inferred⟩

/-- `ReasoningEngine._apply_transitive_rule`: runs `traverse(term_id, 1, 1.0)`
on a fresh `inferred` list and the shared `visited` set; returns the
appended results and the updated `visited`. -/
def apply_transitive_rule (db : Store) (term_id : String) (max_depth : ℤ)
    (confidence_threshold : ℚ) (visited : List String) :
    List Derived × List String :=
  let st := traverse db term_id max_depth confidence_threshold
    (max_depth.toNat + 1) term_id 1 1 ⟨visited, []⟩
  (st.inferred, st.visited)

/-- `ReasoningEngine._apply_symmetric_rule` (ignores `max_depth` and leaves
`visited` untouched). -/
def apply_symmetric_rule (db : Store) (term_id : String) (_max_depth : ℤ)
    (confidence_threshold : ℚ) (visited : List String) :
    List Derived × List String :=
  let inverse_rels := incomingIn db term_id symmetric_relations
  ((inverse_rels.filter fun rel => decide (confidence_threshold ≤ rel.confidence)).map
      fun rel =>
        ⟨term_id, rel.source_term_id, rel.relation_type, rel.confidence,
          "symmetric", 1⟩,
    visited)

/-- The `for rel in relations:` loop body of `find_equivalents` in
`_apply_equivalence_rule`. -/
def find_equivalents_edges (recurse : String → ℤ → ℚ → TState → TState)
    (seed : String) (threshold : ℚ) :
    List TermRelation → ℤ → ℚ → TState → TState
  | [], _, _, st => st
  | rel :: rest, depth, acc, st =>
    let nc := acc * rel.confidence * CONFIDENCE_DECAY
    let st1 := if rel.target_term_id ≠ seed ∧ threshold ≤ nc then
        ⟨st.visited, st.inferred ++
          [⟨seed, rel.target_term_id, "equivalent", round3 nc,
            "equivalence", depth⟩]⟩
      else st
    let st2 := recurse rel.target_term_id (depth + 1) nc st1
    find_equivalents_edges recurse seed threshold rest depth acc st2

/-- `find_equivalents(current_id, depth, accumulated_confidence)` of
`_apply_equivalence_rule` (fuel discipline as for `traverse`). -/
def find_equivalents (db : Store) (seed : String) (max_depth : ℤ)
    (threshold : ℚ) :
    Nat → String → ℤ → ℚ → TState → TState
  | 0, _, _, _, st => st
  | fuel + 1, current, depth, acc, st =>
    if max_depth < depth ∨ current ∈ st.visited then st
    else
      find_equivalents_edges (find_equivalents db seed max_depth threshold fuel)
        seed threshold (outgoingIn db current ["equivalent"]) depth acc
        ⟨current :: st.visited, st.inferred⟩

/-- `ReasoningEngine._apply_equivalence_rule`. -/
def apply_equivalence_rule (db : Store) (term_id : String) (max_depth : ℤ)
    (confidence_threshold : ℚ) (visited : List String) :
    List Derived × List String :=
  let st := find_equivalents db term_id max_depth confidence_threshold
    (max_depth.toNat + 1) term_id 1 1 ⟨visited, []⟩
  (st.inferred, st.visited)

/-- The `inverse_mapping` dict of `_apply_inverse_rule`. -/
def inverse_mapping (t : String) : Option String :=
  if t = "broader" then some "narrower"
  else if t = "narrower" then some "broader"
  else if t = "part_of" then some "has_part"
  else if t = "has_part" then some "part_of"
  else none

/-- `ReasoningEngine._apply_inverse_rule` (ignores `max_depth`, leaves
`visited` untouched). -/
def apply_inverse_rule (db : Store) (term_id : String) (_max_depth : ℤ)
    (confidence_threshold : ℚ) (visited : List String) :
    List Derived × List String :=
  ((incomingAll db term_id).filterMap fun rel =>
      match inverse_mapping rel.relation_type with
      | some inverse_type =>
        if confidence_threshold ≤ rel.confidence then
          some ⟨term_id, rel.source_term_id, inverse_type, rel.confidence,
            "inverse", 1⟩
        else none
      | none => none,
    visited)

/-- Key insertion order of the `self.reasoning_rules` dict. -/
def reasoning_rule_names : List String :=
  ["transitive", "symmetric", "equivalence", "inverse"]

/-- `self.reasoning_rules[rule_name](term_id, max_depth, confidence_threshold,
visited)`; the catch-all branch models `if rule_name in self.reasoning_rules`
skipping unknown names. -/
def run_rule (db : Store) (term_id : String) (max_depth : ℤ)
    (confidence_threshold : ℚ) (visited : List String) (rule_name : String) :
    List Derived × List String :=
  if rule_name = "transitive" then
    apply_transitive_rule db term_id max_depth confidence_threshold visited
  else if rule_name = "symmetric" then
    apply_symmetric_rule db term_id max_depth confidence_threshold visited
  else if rule_name = "equivalence" then
    apply_equivalence_rule db term_id max_depth confidence_threshold visited
  else if rule_name = "inverse" then
    apply_inverse_rule db term_id max_depth confidence_threshold visited
  else ([], visited)

/-- The dedup key of a candidate: its target_term_id paired with its
relation_type. -/
def derivedKey (d : Derived) : String × String :=
  (d.target_term_id, d.relation_type)

/-- One step of the `unique_inferred` dict construction: Python dicts keep
the first insertion position of a key, and the loop overwrites the value
only when `item.confidence > unique_inferred[key].confidence`. -/
def dedup_insert : List ((String × String) × Derived) → Derived →
    List ((String × String) × Derived)
  | [], item => [(derivedKey item, item)]
  | (k, cur) :: rest, item =>
    if k = derivedKey item then
      if cur.confidence < item.confidence then (k, item) :: rest
      else (k, cur) :: rest
    else (k, cur) :: dedup_insert rest item

/-- The `unique_inferred` dict after the dedup loop, as an association list
in key insertion order. -/
def unique_inferred (l : List Derived) : List ((String × String) × Derived) :=
  l.foldl dedup_insert []

/-- Stable insertion of one element into a list sorted by descending
confidence: the element is placed before the first entry whose confidence
is ≤ its own. -/
def insert_desc (x : Derived) : List Derived → List Derived
  | [] => [x]
  | y :: ys =>
    if y.confidence ≤ x.confidence then x :: y :: ys else y :: insert_desc x ys

/-- The Python sorted call on the dict values, keyed on confidence with
reverse=True:
a stable sort by descending confidence.  Any two stable descending sorts
agree on every input, so this insertion sort produces exactly the list the
Python call produces. -/
def sort_desc (l : List Derived) : List Derived := l.foldr insert_desc []

/-- The dedup-and-rank tail of `infer_relations` (lines 60-71). -/
def dedup_and_rank (l : List Derived) : List Derived :=
  sort_desc ((unique_inferred l).map Prod.snd)

/-- The body of the `for rule_name in rules:` loop of `infer_relations`:
run one rule on the shared `visited` set and extend the `inferred` list. -/
def run_rules_step (db : Store) (term_id : String) (max_depth : ℤ)
    (confidence_threshold : ℚ) (p : List Derived × List String)
    (rule_name : String) : List Derived × List String :=
  let r := run_rule db term_id max_depth confidence_threshold p.2 rule_name
  (p.1 ++ r.1, r.2)

/-- `ReasoningEngine.infer_relations`.  `rules = None` selects all four
rules in dict order; the selected rules run in list order, sharing one
`visited` set, and their outputs are concatenated, deduplicated and
ranked. -/
def infer_relations (db : Store) (term_id : String)
    (rules : Option (List String)) (max_depth : ℤ)
    (confidence_threshold : ℚ) : List Derived :=
  let rs := rules.getD reasoning_rule_names
  let p := rs.foldl (run_rules_step db term_id max_depth confidence_threshold)
    ([], [])
  dedup_and_rank p.1

/-!
Path-instrumented copies of the two recursive traversals.  They differ
from `traverse` / `find_equivalents` only in that each emitted candidate
is paired with the list of stored edges of the path it was derived from
(the `path` argument, extended by the current edge at every hop).  The
erasure lemmas below prove that dropping the recorded paths gives back
the original traversals, so facts about recorded paths are facts about
the actual derivations of the engine.
-/

/-- State of an instrumented traversal: each inferred candidate carries
the stored edges of its derivation path. -/
structure TStateP where
  visited : List String
  inferred : List (Derived × List TermRelation)
deriving DecidableEq, Repr

/-- Forget the recorded paths. -/
def eraseP (st : TStateP) : TState :=
  ⟨st.visited, st.inferred.map Prod.fst⟩

/-- Instrumented copy of `traverse_edges`. -/
def traverseP_edges
    (recurse : String → ℤ → ℚ → List TermRelation → TStateP → TStateP)
    (seed : String) (threshold : ℚ) :
    List TermRelation → ℤ → ℚ → List TermRelation → TStateP → TStateP
  | [], _, _, _, st => st
  | rel :: rest, depth, acc, path, st =>
    let nc := acc * rel.confidence * CONFIDENCE_DECAY
    let st1 := if threshold ≤ nc then
        ⟨st.visited, st.inferred ++
          [(⟨seed, rel.target_term_id, rel.relation_type, round3 nc,
              "transitive", depth⟩, path ++ [rel])]⟩
      else st
    let st2 := recurse rel.target_term_id (depth + 1) nc (path ++ [rel]) st1
    traverseP_edges recurse seed threshold rest depth acc path st2

/-- Instrumented copy of `traverse`. -/
def traverseP (db : Store) (seed : String) (max_depth : ℤ) (threshold : ℚ) :
    Nat → String → ℤ → ℚ → List TermRelation → TStateP → TStateP
  | 0, _, _, _, _, st => st
  | fuel + 1, current, depth, acc, path, st =>
    if max_depth < depth ∨ current ∈ st.visited then st
    else
      traverseP_edges (traverseP db seed max_depth threshold fuel) seed
        threshold (outgoingIn db current transitive_relations) depth acc path
        ⟨current :: st.visited, st.inferred⟩

/-- Instrumented copy of `find_equivalents_edges`. -/
def find_equivalentsP_edges
    (recurse : String → ℤ → ℚ → List TermRelation → TStateP → TStateP)
    (seed : String) (threshold : ℚ) :
    List TermRelation → ℤ → ℚ → List TermRelation → TStateP → TStateP
  | [], _, _, _, st => st
  | rel :: rest, depth, acc, path, st =>
    let nc := acc * rel.confidence * CONFIDENCE_DECAY
    let st1 := if rel.target_term_id ≠ seed ∧ threshold ≤ nc then
        ⟨st.visited, st.inferred ++
          [(⟨seed, rel.target_term_id, "equivalent", round3 nc,
              "equivalence", depth⟩, path ++ [rel])]⟩
      else st
    let st2 := recurse rel.target_term_id (depth + 1) nc (path ++ [rel]) st1
    find_equivalentsP_edges recurse seed threshold rest depth acc path st2

/-- Instrumented copy of `find_equivalents`. -/
def find_equivalentsP (db : Store) (seed : String) (max_depth : ℤ)
    (threshold : ℚ) :
    Nat → String → ℤ → ℚ → List TermRelation → TStateP → TStateP
  | 0, _, _, _, _, st => st
  | fuel + 1, current, depth, acc, path, st =>
    if max_depth < depth ∨ current ∈ st.visited then st
    else
      find_equivalentsP_edges (find_equivalentsP db seed max_depth threshold fuel)
        seed threshold (outgoingIn db current ["equivalent"]) depth acc path
        ⟨current :: st.visited, st.inferred⟩

/-! ### Arithmetic facts about the rounding function -/

theorem round_half_even_bounds (q : ℚ) :
    q - 1 / 2 ≤ (round_half_even q : ℚ) ∧ (round_half_even q : ℚ) ≤ q + 1 / 2 := by
  have hfl : (⌊q⌋ : ℚ) ≤ q := Int.floor_le q
  have hfu : q < (⌊q⌋ : ℚ) + 1 := Int.lt_floor_add_one q
  unfold round_half_even
  split
  · rename_i h
    rw [Int.fract] at h
    constructor <;> [linarith; linarith]
  · rename_i h
    push_neg at h
    rw [Int.fract] at h
    split
    · rename_i h2
      rw [Int.fract] at h2
      push_cast
      constructor <;> [linarith; linarith]
    · rename_i h2
      push_neg at h2
      rw [Int.fract] at h2
      have hq : q - (⌊q⌋ : ℚ) = 1 / 2 := le_antisymm h2 h
      split
      · constructor <;> [linarith; linarith]
      · push_cast
        constructor <;> [linarith; linarith]

theorem round3_bounds (q : ℚ) :
    q - 1 / 2000 ≤ round3 q ∧ round3 q ≤ q + 1 / 2000 := by
  obtain ⟨h1, h2⟩ := round_half_even_bounds (q * 1000)
  unfold round3
  constructor <;> [linarith; linarith]

/-! ### The stable descending sort -/

theorem mem_insert_desc (x y : Derived) (l : List Derived) :
    y ∈ insert_desc x l ↔ y = x ∨ y ∈ l := by
  induction l with
  | nil => simp [insert_desc]
  | cons a l ih =>
    unfold insert_desc
    split
    · simp [List.mem_cons]
    · simp only [List.mem_cons, ih]
      tauto

theorem mem_sort_desc (y : Derived) (l : List Derived) :
    y ∈ sort_desc l ↔ y ∈ l := by
  induction l with
  | nil => simp [sort_desc]
  | cons a l ih =>
    show y ∈ insert_desc a (sort_desc l) ↔ _
    rw [mem_insert_desc]
    simp [ih]

theorem sorted_insert_desc (x : Derived) (l : List Derived)
    (h : l.Pairwise fun a b => b.confidence ≤ a.confidence) :
    (insert_desc x l).Pairwise fun a b => b.confidence ≤ a.confidence := by
  induction l with
  | nil => simp [insert_desc]
  | cons a l ih =>
    rw [List.pairwise_cons] at h
    unfold insert_desc
    split
    · rename_i hle
      rw [List.pairwise_cons]
      refine ⟨?_, List.pairwise_cons.mpr h⟩
      intro b hb
      rcases List.mem_cons.mp hb with rfl | hb
      · exact hle
      · exact le_trans (h.1 b hb) hle
    · rename_i hgt
      push_neg at hgt
      rw [List.pairwise_cons]
      refine ⟨?_, ih h.2⟩
      intro b hb
      rcases (mem_insert_desc x b l).mp hb with rfl | hb
      · exact le_of_lt hgt
      · exact h.1 b hb

theorem sorted_sort_desc (l : List Derived) :
    (sort_desc l).Pairwise fun a b => b.confidence ≤ a.confidence := by
  induction l with
  | nil => simp [sort_desc]
  | cons a l ih => exact sorted_insert_desc a (sort_desc l) ih

theorem perm_insert_desc (x : Derived) (l : List Derived) :
    List.Perm (insert_desc x l) (x :: l) := by
  induction l with
  | nil => exact List.Perm.refl _
  | cons a l ih =>
    unfold insert_desc
    split
    · exact List.Perm.refl _
    · exact (ih.cons a).trans (List.Perm.swap x a l)

theorem perm_sort_desc (l : List Derived) : List.Perm (sort_desc l) l := by
  induction l with
  | nil => exact List.Perm.refl _
  | cons a l ih => exact (perm_insert_desc a (sort_desc l)).trans (ih.cons a)

/-! ### The dedup dict -/

theorem dedup_insert_mem (m : List ((String × String) × Derived)) (item : Derived) :
    ∀ p ∈ dedup_insert m item, p ∈ m ∨ (p.1 = derivedKey item ∧ p.2 = item) := by
  induction m with
  | nil =>
    intro p hp
    simp only [dedup_insert, List.mem_singleton] at hp
    subst hp
    exact Or.inr ⟨rfl, rfl⟩
  | cons a rest ih =>
    obtain ⟨k, cur⟩ := a
    intro p hp
    unfold dedup_insert at hp
    by_cases hk : k = derivedKey item
    · rw [if_pos hk] at hp
      by_cases hc : cur.confidence < item.confidence
      · rw [if_pos hc] at hp
        rcases List.mem_cons.mp hp with rfl | hp2
        · exact Or.inr ⟨hk, rfl⟩
        · exact Or.inl (List.mem_cons_of_mem _ hp2)
      · rw [if_neg hc] at hp
        rcases List.mem_cons.mp hp with rfl | hp2
        · exact Or.inl (List.mem_cons_self _ _)
        · exact Or.inl (List.mem_cons_of_mem _ hp2)
    · rw [if_neg hk] at hp
      rcases List.mem_cons.mp hp with rfl | hp2
      · exact Or.inl (List.mem_cons_self _ _)
      · rcases ih p hp2 with h | h
        · exact Or.inl (List.mem_cons_of_mem _ h)
        · exact Or.inr h

theorem dedup_insert_exists (m : List ((String × String) × Derived)) (item : Derived) :
    ∃ p ∈ dedup_insert m item,
      p.1 = derivedKey item ∧ item.confidence ≤ p.2.confidence := by
  induction m with
  | nil => exact ⟨(derivedKey item, item), by simp [dedup_insert], rfl, le_refl _⟩
  | cons a rest ih =>
    obtain ⟨k, cur⟩ := a
    unfold dedup_insert
    by_cases hk : k = derivedKey item
    · rw [if_pos hk]
      by_cases hc : cur.confidence < item.confidence
      · rw [if_pos hc]
        exact ⟨(k, item), List.mem_cons_self _ _, hk, le_refl _⟩
      · rw [if_neg hc]
        push_neg at hc
        exact ⟨(k, cur), List.mem_cons_self _ _, hk, hc⟩
    · rw [if_neg hk]
      obtain ⟨p, hp, hkey, hconf⟩ := ih
      exact ⟨p, List.mem_cons_of_mem _ hp, hkey, hconf⟩

theorem dedup_insert_mono (m : List ((String × String) × Derived)) (item : Derived) :
    ∀ p ∈ m, ∃ q ∈ dedup_insert m item,
      q.1 = p.1 ∧ p.2.confidence ≤ q.2.confidence := by
  induction m with
  | nil => simp
  | cons a rest ih =>
    obtain ⟨k, cur⟩ := a
    intro p hp
    unfold dedup_insert
    by_cases hk : k = derivedKey item
    · rw [if_pos hk]
      rcases List.mem_cons.mp hp with rfl | hp2
      · by_cases hc : cur.confidence < item.confidence
        · rw [if_pos hc]
          exact ⟨(k, item), List.mem_cons_self _ _, rfl, le_of_lt hc⟩
        · rw [if_neg hc]
          exact ⟨(k, cur), List.mem_cons_self _ _, rfl, le_refl _⟩
      · by_cases hc : cur.confidence < item.confidence
        · rw [if_pos hc]
          exact ⟨p, List.mem_cons_of_mem _ hp2, rfl, le_refl _⟩
        · rw [if_neg hc]
          exact ⟨p, List.mem_cons_of_mem _ hp2, rfl, le_refl _⟩
    · rw [if_neg hk]
      rcases List.mem_cons.mp hp with rfl | hp2
      · exact ⟨(k, cur), List.mem_cons_self _ _, rfl, le_refl _⟩
      · obtain ⟨q, hq, hkey, hconf⟩ := ih p hp2
        exact ⟨q, List.mem_cons_of_mem _ hq, hkey, hconf⟩

theorem dedup_insert_keys (m : List ((String × String) × Derived)) (item : Derived) :
    (dedup_insert m item).map Prod.fst =
      if derivedKey item ∈ m.map Prod.fst then m.map Prod.fst
      else m.map Prod.fst ++ [derivedKey item] := by
  induction m with
  | nil => simp [dedup_insert]
  | cons a rest ih =>
    obtain ⟨k, cur⟩ := a
    unfold dedup_insert
    by_cases hk : k = derivedKey item
    · subst hk
      rw [if_pos rfl]
      by_cases hc : cur.confidence < item.confidence
      · rw [if_pos hc]
        simp
      · rw [if_neg hc]
        simp
    · rw [if_neg hk]
      have hmem : (derivedKey item ∈ ((k, cur) :: rest).map Prod.fst) ↔
          derivedKey item ∈ rest.map Prod.fst := by
        simp only [List.map_cons, List.mem_cons]
        constructor
        · rintro (h | h)
          · exact absurd h.symm hk
          · exact h
        · exact Or.inr
      rw [List.map_cons, ih]
      by_cases h2 : derivedKey item ∈ rest.map Prod.fst
      · rw [if_pos h2, if_pos (hmem.mpr h2), List.map_cons]
      · rw [if_neg h2, if_neg fun hc => h2 (hmem.mp hc), List.map_cons]
        simp

theorem keys_nodup_unique {m : List ((String × String) × Derived)}
    (h : (m.map Prod.fst).Nodup) :
    ∀ p ∈ m, ∀ q ∈ m, p.1 = q.1 → p = q := by
  induction m with
  | nil => simp
  | cons a rest ih =>
    rw [List.map_cons, List.nodup_cons] at h
    intro p hp q hq hk
    rcases List.mem_cons.mp hp with rfl | hp2 <;>
      rcases List.mem_cons.mp hq with rfl | hq2
    · rfl
    · exact absurd (by rw [hk]; exact List.mem_map_of_mem Prod.fst hq2) h.1
    · exact absurd (by rw [← hk]; exact List.mem_map_of_mem Prod.fst hp2) h.1
    · exact ih h.2 p hp2 q hq2 hk

theorem unique_inferred_fold_mem (l : List Derived) :
    ∀ m, ∀ p ∈ l.foldl dedup_insert m, p ∈ m ∨ p.2 ∈ l := by
  induction l with
  | nil => simp
  | cons x rest ih =>
    intro m p hp
    rw [List.foldl_cons] at hp
    rcases ih (dedup_insert m x) p hp with h | h
    · rcases dedup_insert_mem m x p h with h2 | h2
      · exact Or.inl h2
      · exact Or.inr (by simp [h2.2])
    · exact Or.inr (List.mem_cons_of_mem _ h)

theorem unique_inferred_fold_mono (l : List Derived) :
    ∀ m, ∀ p ∈ m, ∃ q ∈ l.foldl dedup_insert m,
      q.1 = p.1 ∧ p.2.confidence ≤ q.2.confidence := by
  induction l with
  | nil => exact fun m p hp => ⟨p, hp, rfl, le_refl _⟩
  | cons x rest ih =>
    intro m p hp
    rw [List.foldl_cons]
    obtain ⟨q, hq, hk, hc⟩ := dedup_insert_mono m x p hp
    obtain ⟨q2, hq2, hk2, hc2⟩ := ih (dedup_insert m x) q hq
    exact ⟨q2, hq2, hk2.trans hk, le_trans hc hc2⟩

theorem unique_inferred_fold_exists (l : List Derived) :
    ∀ m, ∀ x ∈ l, ∃ p ∈ l.foldl dedup_insert m,
      p.1 = derivedKey x ∧ x.confidence ≤ p.2.confidence := by
  induction l with
  | nil => simp
  | cons y rest ih =>
    intro m x hx
    rw [List.foldl_cons]
    rcases List.mem_cons.mp hx with rfl | hx2
    · obtain ⟨p, hp, hk, hc⟩ := dedup_insert_exists m x
      obtain ⟨q, hq, hk2, hc2⟩ := unique_inferred_fold_mono rest (dedup_insert m x) p hp
      exact ⟨q, hq, hk2.trans hk, le_trans hc hc2⟩
    · exact ih (dedup_insert m y) x hx2

theorem unique_inferred_fold_wfkey (l : List Derived) :
    ∀ m, (∀ p ∈ m, p.1 = derivedKey p.2) →
      ∀ p ∈ l.foldl dedup_insert m, p.1 = derivedKey p.2 := by
  induction l with
  | nil => exact fun m hm => hm
  | cons x rest ih =>
    intro m hm
    rw [List.foldl_cons]
    refine ih (dedup_insert m x) fun p hp => ?_
    rcases dedup_insert_mem m x p hp with h | h
    · exact hm p h
    · rw [h.1, h.2]

theorem unique_inferred_fold_keys_sub (l : List Derived) :
    ∀ m, ∀ k ∈ (l.foldl dedup_insert m).map Prod.fst,
      k ∈ m.map Prod.fst ∨ k ∈ l.map derivedKey := by
  induction l with
  | nil => simp
  | cons x rest ih =>
    intro m k hk
    rw [List.foldl_cons] at hk
    rcases ih (dedup_insert m x) k hk with h | h
    · rw [dedup_insert_keys] at h
      by_cases h3 : derivedKey x ∈ m.map Prod.fst
      · rw [if_pos h3] at h
        exact Or.inl h
      · rw [if_neg h3] at h
        rcases List.mem_append.mp h with h2 | h2
        · exact Or.inl h2
        · simp only [List.mem_singleton] at h2
          exact Or.inr (by simp [h2])
    · exact Or.inr (List.mem_cons_of_mem _ h)

theorem unique_inferred_fold_nodup (l : List Derived) :
    ∀ m, (m.map Prod.fst).Nodup → ((l.foldl dedup_insert m).map Prod.fst).Nodup := by
  induction l with
  | nil => exact fun m hm => hm
  | cons x rest ih =>
    intro m hm
    rw [List.foldl_cons]
    refine ih (dedup_insert m x) ?_
    rw [dedup_insert_keys]
    by_cases h : derivedKey x ∈ m.map Prod.fst
    · rw [if_pos h]
      exact hm
    · rw [if_neg h]
      refine List.Nodup.append hm (List.nodup_singleton _) ?_
      intro a ha hb
      simp only [List.mem_singleton] at hb
      subst hb
      exact h ha

theorem unique_inferred_mem (l : List Derived) :
    ∀ p ∈ unique_inferred l, p.2 ∈ l ∧ p.1 = derivedKey p.2 := by
  intro p hp
  refine ⟨?_, unique_inferred_fold_wfkey l [] (by simp) p hp⟩
  rcases unique_inferred_fold_mem l [] p hp with h | h
  · simp at h
  · exact h

theorem unique_inferred_nodup (l : List Derived) :
    ((unique_inferred l).map Prod.fst).Nodup :=
  unique_inferred_fold_nodup l [] (by simp)

theorem unique_inferred_max (l : List Derived) :
    ∀ p ∈ unique_inferred l, ∀ x ∈ l, derivedKey x = p.1 →
      x.confidence ≤ p.2.confidence := by
  intro p hp x hx hk
  obtain ⟨q, hq, hk2, hc⟩ := unique_inferred_fold_exists l [] x hx
  have hqp : q = p :=
    keys_nodup_unique (unique_inferred_nodup l) q hq p hp (hk2.trans hk)
  exact hqp ▸ hc

/-! ### Dedup-and-rank facts -/

theorem mem_dedup_and_rank (l : List Derived) (d : Derived) :
    d ∈ dedup_and_rank l ↔ d ∈ (unique_inferred l).map Prod.snd :=
  mem_sort_desc d _

theorem dedup_and_rank_sub (l : List Derived) :
    ∀ d ∈ dedup_and_rank l, d ∈ l := by
  intro d hd
  rw [mem_dedup_and_rank] at hd
  obtain ⟨p, hp, rfl⟩ := List.mem_map.mp hd
  exact (unique_inferred_mem l p hp).1

theorem dedup_and_rank_max (l : List Derived) :
    ∀ d ∈ dedup_and_rank l, ∀ x ∈ l, derivedKey x = derivedKey d →
      x.confidence ≤ d.confidence := by
  intro d hd x hx hk
  rw [mem_dedup_and_rank] at hd
  obtain ⟨p, hp, rfl⟩ := List.mem_map.mp hd
  exact unique_inferred_max l p hp x hx
    (hk.trans (unique_inferred_mem l p hp).2.symm)

theorem dedup_and_rank_exists (l : List Derived) :
    ∀ x ∈ l, ∃ d ∈ dedup_and_rank l,
      derivedKey d = derivedKey x ∧ x.confidence ≤ d.confidence := by
  intro x hx
  obtain ⟨p, hp, hk, hc⟩ := unique_inferred_fold_exists l [] x hx
  refine ⟨p.2, ?_, ?_, hc⟩
  · rw [mem_dedup_and_rank]
    exact List.mem_map_of_mem Prod.snd hp
  · rw [← (unique_inferred_mem l p hp).2, hk]

theorem dedup_and_rank_keys_nodup (l : List Derived) :
    ((dedup_and_rank l).map derivedKey).Nodup := by
  have hperm : List.Perm ((dedup_and_rank l).map derivedKey)
      (((unique_inferred l).map Prod.snd).map derivedKey) :=
    (perm_sort_desc _).map derivedKey
  rw [hperm.nodup_iff]
  have heq : ((unique_inferred l).map Prod.snd).map derivedKey =
      (unique_inferred l).map Prod.fst := by
    rw [List.map_map]
    exact List.map_congr_left fun p hp => ((unique_inferred_mem l p hp).2).symm
  rw [heq]
  exact unique_inferred_nodup l

theorem dedup_and_rank_keys_sub (l : List Derived) :
    ∀ k ∈ (dedup_and_rank l).map derivedKey, k ∈ l.map derivedKey := by
  intro k hk
  obtain ⟨d, hd, rfl⟩ := List.mem_map.mp hk
  exact List.mem_map_of_mem derivedKey (dedup_and_rank_sub l d hd)

theorem dedup_and_rank_keys_mem (l : List Derived) :
    ∀ k ∈ l.map derivedKey, k ∈ (dedup_and_rank l).map derivedKey := by
  intro k hk
  obtain ⟨x, hx, rfl⟩ := List.mem_map.mp hk
  obtain ⟨d, hd, hkey, _⟩ := dedup_and_rank_exists l x hx
  exact hkey ▸ List.mem_map_of_mem derivedKey hd

theorem dedup_and_rank_sorted (l : List Derived) :
    (dedup_and_rank l).Pairwise fun a b => b.confidence ≤ a.confidence :=
  sorted_sort_desc _

/-! ### Shape of the candidates each rule emits -/

/-- Every candidate the transitive rule emits has this shape. -/
def trans_out (seed : String) (threshold : ℚ) (d : Derived) : Prop :=
  d.rule = "transitive" ∧ d.source_term_id = seed ∧
    ∃ nc : ℚ, threshold ≤ nc ∧ d.confidence = round3 nc

/-- Every candidate the equivalence rule emits has this shape. -/
def equiv_out (seed : String) (threshold : ℚ) (d : Derived) : Prop :=
  d.rule = "equivalence" ∧ d.source_term_id = seed ∧
    d.relation_type = "equivalent" ∧ d.target_term_id ≠ seed ∧
    ∃ nc : ℚ, threshold ≤ nc ∧ d.confidence = round3 nc

/-- Every candidate the symmetric rule emits mirrors one stored edge. -/
def symm_out (db : Store) (seed : String) (threshold : ℚ) (d : Derived) : Prop :=
  ∃ r ∈ db, r.target_term_id = seed ∧
    r.relation_type ∈ symmetric_relations ∧
    threshold ≤ r.confidence ∧
    d = ⟨seed, r.source_term_id, r.relation_type, r.confidence, "symmetric", 1⟩

/-- Every candidate the inverse rule emits inverts one stored edge. -/
def inv_out (db : Store) (seed : String) (threshold : ℚ) (d : Derived) : Prop :=
  ∃ r ∈ db, r.target_term_id = seed ∧
    ∃ ty, inverse_mapping r.relation_type = some ty ∧
      threshold ≤ r.confidence ∧
      d = ⟨seed, r.source_term_id, ty, r.confidence, "inverse", 1⟩

theorem traverse_edges_out (recurse : String → ℤ → ℚ → TState → TState)
    (seed : String) (t : ℚ)
    (hrec : ∀ c dep a s, ∀ d ∈ (recurse c dep a s).inferred,
      d ∈ s.inferred ∨ trans_out seed t d) :
    ∀ rels dep acc st,
      ∀ d ∈ (traverse_edges recurse seed t rels dep acc st).inferred,
        d ∈ st.inferred ∨ trans_out seed t d := by
  intro rels
  induction rels with
  | nil =>
    intro dep acc st d hd
    simp only [traverse_edges] at hd
    exact Or.inl hd
  | cons rel rest ih =>
    intro dep acc st d hd
    simp only [traverse_edges] at hd
    rcases ih dep acc _ d hd with h | h
    · rcases hrec _ _ _ _ d h with h2 | h2
      · by_cases hc : t ≤ acc * rel.confidence * CONFIDENCE_DECAY
        · rw [if_pos hc] at h2
          rcases List.mem_append.mp h2 with h3 | h3
          · exact Or.inl h3
          · simp only [List.mem_singleton] at h3
            subst h3
            exact Or.inr ⟨rfl, rfl, _, hc, rfl⟩
        · rw [if_neg hc] at h2
          exact Or.inl h2
      · exact Or.inr h2
    · exact Or.inr h

theorem traverse_out (db : Store) (seed : String) (m : ℤ) (t : ℚ) :
    ∀ fuel c dep acc st,
      ∀ d ∈ (traverse db seed m t fuel c dep acc st).inferred,
        d ∈ st.inferred ∨ trans_out seed t d := by
  intro fuel
  induction fuel with
  | zero =>
    intro c dep acc st d hd
    simp only [traverse] at hd
    exact Or.inl hd
  | succ n ih =>
    intro c dep acc st d hd
    simp only [traverse] at hd
    split at hd
    · exact Or.inl hd
    · exact traverse_edges_out (traverse db seed m t n) seed t
        (fun c2 dep2 a2 s2 => ih c2 dep2 a2 s2)
        (outgoingIn db c transitive_relations) dep acc
        ⟨c :: st.visited, st.inferred⟩ d hd

theorem traverse_edges_vis (recurse : String → ℤ → ℚ → TState → TState)
    (seed : String) (t : ℚ)
    (hrec : ∀ c dep a s x, x ∈ s.visited → x ∈ (recurse c dep a s).visited) :
    ∀ rels dep acc st x, x ∈ st.visited →
      x ∈ (traverse_edges recurse seed t rels dep acc st).visited := by
  intro rels
  induction rels with
  | nil =>
    intro dep acc st x hx
    simp only [traverse_edges]
    exact hx
  | cons rel rest ih =>
    intro dep acc st x hx
    simp only [traverse_edges]
    refine ih dep acc _ x (hrec _ _ _ _ x ?_)
    by_cases hc : t ≤ acc * rel.confidence * CONFIDENCE_DECAY
    · rw [if_pos hc]
      exact hx
    · rw [if_neg hc]
      exact hx

theorem traverse_vis (db : Store) (seed : String) (m : ℤ) (t : ℚ) :
    ∀ fuel c dep acc st x, x ∈ st.visited →
      x ∈ (traverse db seed m t fuel c dep acc st).visited := by
  intro fuel
  induction fuel with
  | zero =>
    intro c dep acc st x hx
    simp only [traverse]
    exact hx
  | succ n ih =>
    intro c dep acc st x hx
    simp only [traverse]
    split
    · exact hx
    · exact traverse_edges_vis (traverse db seed m t n) seed t
        (fun c2 dep2 a2 s2 => ih c2 dep2 a2 s2) _ dep acc _ x
        (List.mem_cons_of_mem _ hx)

theorem find_equivalents_edges_out (recurse : String → ℤ → ℚ → TState → TState)
    (seed : String) (t : ℚ)
    (hrec : ∀ c dep a s, ∀ d ∈ (recurse c dep a s).inferred,
      d ∈ s.inferred ∨ equiv_out seed t d) :
    ∀ rels dep acc st,
      ∀ d ∈ (find_equivalents_edges recurse seed t rels dep acc st).inferred,
        d ∈ st.inferred ∨ equiv_out seed t d := by
  intro rels
  induction rels with
  | nil =>
    intro dep acc st d hd
    simp only [find_equivalents_edges] at hd
    exact Or.inl hd
  | cons rel rest ih =>
    intro dep acc st d hd
    simp only [find_equivalents_edges] at hd
    rcases ih dep acc _ d hd with h | h
    · rcases hrec _ _ _ _ d h with h2 | h2
      · by_cases hc : rel.target_term_id ≠ seed ∧
            t ≤ acc * rel.confidence * CONFIDENCE_DECAY
        · rw [if_pos hc] at h2
          rcases List.mem_append.mp h2 with h3 | h3
          · exact Or.inl h3
          · simp only [List.mem_singleton] at h3
            subst h3
            exact Or.inr ⟨rfl, rfl, rfl, hc.1, _, hc.2, rfl⟩
        · rw [if_neg hc] at h2
          exact Or.inl h2
      · exact Or.inr h2
    · exact Or.inr h

theorem find_equivalents_out (db : Store) (seed : String) (m : ℤ) (t : ℚ) :
    ∀ fuel c dep acc st,
      ∀ d ∈ (find_equivalents db seed m t fuel c dep acc st).inferred,
        d ∈ st.inferred ∨ equiv_out seed t d := by
  intro fuel
  induction fuel with
  | zero =>
    intro c dep acc st d hd
    simp only [find_equivalents] at hd
    exact Or.inl hd
  | succ n ih =>
    intro c dep acc st d hd
    simp only [find_equivalents] at hd
    split at hd
    · exact Or.inl hd
    · exact find_equivalents_edges_out (find_equivalents db seed m t n) seed t
        (fun c2 dep2 a2 s2 => ih c2 dep2 a2 s2)
        (outgoingIn db c ["equivalent"]) dep acc
        ⟨c :: st.visited, st.inferred⟩ d hd

theorem find_equivalents_edges_vis (recurse : String → ℤ → ℚ → TState → TState)
    (seed : String) (t : ℚ)
    (hrec : ∀ c dep a s x, x ∈ s.visited → x ∈ (recurse c dep a s).visited) :
    ∀ rels dep acc st x, x ∈ st.visited →
      x ∈ (find_equivalents_edges recurse seed t rels dep acc st).visited := by
  intro rels
  induction rels with
  | nil =>
    intro dep acc st x hx
    simp only [find_equivalents_edges]
    exact hx
  | cons rel rest ih =>
    intro dep acc st x hx
    simp only [find_equivalents_edges]
    refine ih dep acc _ x (hrec _ _ _ _ x ?_)
    by_cases hc : rel.target_term_id ≠ seed ∧
        t ≤ acc * rel.confidence * CONFIDENCE_DECAY
    · rw [if_pos hc]
      exact hx
    · rw [if_neg hc]
      exact hx

theorem find_equivalents_vis (db : Store) (seed : String) (m : ℤ) (t : ℚ) :
    ∀ fuel c dep acc st x, x ∈ st.visited →
      x ∈ (find_equivalents db seed m t fuel c dep acc st).visited := by
  intro fuel
  induction fuel with
  | zero =>
    intro c dep acc st x hx
    simp only [find_equivalents]
    exact hx
  | succ n ih =>
    intro c dep acc st x hx
    simp only [find_equivalents]
    split
    · exact hx
    · exact find_equivalents_edges_vis (find_equivalents db seed m t n) seed t
        (fun c2 dep2 a2 s2 => ih c2 dep2 a2 s2) _ dep acc _ x
        (List.mem_cons_of_mem _ hx)

/-! ### Per-rule characterizations -/

theorem apply_transitive_out (db : Store) (seed : String) (m : ℤ) (t : ℚ)
    (v : List String) :
    ∀ d ∈ (apply_transitive_rule db seed m t v).1, trans_out seed t d := by
  intro d hd
  simp only [apply_transitive_rule] at hd
  rcases traverse_out db seed m t (m.toNat + 1) seed 1 1 ⟨v, []⟩ d hd with h | h
  · simp at h
  · exact h

theorem apply_equivalence_out (db : Store) (seed : String) (m : ℤ) (t : ℚ)
    (v : List String) :
    ∀ d ∈ (apply_equivalence_rule db seed m t v).1, equiv_out seed t d := by
  intro d hd
  simp only [apply_equivalence_rule] at hd
  rcases find_equivalents_out db seed m t (m.toNat + 1) seed 1 1 ⟨v, []⟩ d hd with h | h
  · simp at h
  · exact h

theorem apply_symmetric_mem (db : Store) (seed : String) (m : ℤ) (t : ℚ)
    (v : List String) (d : Derived) :
    d ∈ (apply_symmetric_rule db seed m t v).1 ↔ symm_out db seed t d := by
  simp only [apply_symmetric_rule, incomingIn, List.mem_map, List.mem_filter,
    decide_eq_true_eq, symm_out]
  constructor
  · rintro ⟨r, ⟨⟨hr, htgt, hty⟩, hth⟩, rfl⟩
    exact ⟨r, hr, htgt, hty, hth, rfl⟩
  · rintro ⟨r, hr, htgt, hty, hth, rfl⟩
    exact ⟨r, ⟨⟨hr, htgt, hty⟩, hth⟩, rfl⟩

theorem apply_inverse_mem (db : Store) (seed : String) (m : ℤ) (t : ℚ)
    (v : List String) (d : Derived) :
    d ∈ (apply_inverse_rule db seed m t v).1 ↔ inv_out db seed t d := by
  simp only [apply_inverse_rule, List.mem_filterMap, incomingAll,
    List.mem_filter, decide_eq_true_eq, inv_out]
  constructor
  · rintro ⟨r, ⟨hr, htgt⟩, hf⟩
    split at hf
    · rename_i ty hmap
      by_cases hth : t ≤ r.confidence
      · rw [if_pos hth] at hf
        obtain rfl := Option.some.inj hf
        exact ⟨r, hr, htgt, ty, hmap, hth, rfl⟩
      · rw [if_neg hth] at hf
        exact absurd hf (by simp)
    · exact absurd hf (by simp)
  · rintro ⟨r, hr, htgt, ty, hmap, hth, rfl⟩
    refine ⟨r, ⟨hr, htgt⟩, ?_⟩
    rw [hmap]
    simp [hth]

theorem run_rule_cases (db : Store) (seed : String) (m : ℤ) (t : ℚ)
    (v : List String) (name : String) (d : Derived)
    (hd : d ∈ (run_rule db seed m t v name).1) :
    (name = "transitive" ∧ trans_out seed t d) ∨
    (name = "symmetric" ∧ symm_out db seed t d) ∨
    (name = "equivalence" ∧ equiv_out seed t d) ∨
    (name = "inverse" ∧ inv_out db seed t d) := by
  unfold run_rule at hd
  by_cases h1 : name = "transitive"
  · rw [if_pos h1] at hd
    exact Or.inl ⟨h1, apply_transitive_out db seed m t v d hd⟩
  · rw [if_neg h1] at hd
    by_cases h2 : name = "symmetric"
    · rw [if_pos h2] at hd
      exact Or.inr (Or.inl ⟨h2, (apply_symmetric_mem db seed m t v d).mp hd⟩)
    · rw [if_neg h2] at hd
      by_cases h3 : name = "equivalence"
      · rw [if_pos h3] at hd
        exact Or.inr (Or.inr (Or.inl ⟨h3, apply_equivalence_out db seed m t v d hd⟩))
      · rw [if_neg h3] at hd
        by_cases h4 : name = "inverse"
        · rw [if_pos h4] at hd
          exact Or.inr (Or.inr (Or.inr ⟨h4, (apply_inverse_mem db seed m t v d).mp hd⟩))
        · rw [if_neg h4] at hd
          simp at hd

theorem run_rule_vis (db : Store) (seed : String) (m : ℤ) (t : ℚ)
    (v : List String) (name : String) :
    ∀ x ∈ v, x ∈ (run_rule db seed m t v name).2 := by
  intro x hx
  unfold run_rule
  by_cases h1 : name = "transitive"
  · rw [if_pos h1]
    simp only [apply_transitive_rule]
    exact traverse_vis db seed m t (m.toNat + 1) seed 1 1 ⟨v, []⟩ x hx
  · rw [if_neg h1]
    by_cases h2 : name = "symmetric"
    · rw [if_pos h2]
      exact hx
    · rw [if_neg h2]
      by_cases h3 : name = "equivalence"
      · rw [if_pos h3]
        simp only [apply_equivalence_rule]
        exact find_equivalents_vis db seed m t (m.toNat + 1) seed 1 1 ⟨v, []⟩ x hx
      · rw [if_neg h3]
        by_cases h4 : name = "inverse"
        · rw [if_pos h4]
          exact hx
        · rw [if_neg h4]
          exact hx

theorem run_rule_transitive_seed (db : Store) (seed : String) (m : ℤ) (t : ℚ)
    (v : List String) (h : 1 ≤ m) :
    seed ∈ (run_rule db seed m t v "transitive").2 := by
  unfold run_rule
  rw [if_pos rfl]
  simp only [apply_transitive_rule]
  simp only [traverse]
  split
  · rename_i hg
    rcases hg with hg | hg
    · exact absurd hg (by omega)
    · exact hg
  · exact traverse_edges_vis (traverse db seed m t m.toNat) seed t
      (fun c2 dep2 a2 s2 => traverse_vis db seed m t m.toNat c2 dep2 a2 s2) _ 1 1
      ⟨seed :: v, []⟩ seed (List.mem_cons_self _ _)

theorem run_rule_equivalence_empty (db : Store) (seed : String) (m : ℤ) (t : ℚ)
    (v : List String) (h : m < 1 ∨ seed ∈ v) :
    (run_rule db seed m t v "equivalence").1 = [] := by
  unfold run_rule
  rw [if_neg (by decide), if_neg (by decide), if_pos rfl]
  simp only [apply_equivalence_rule]
  simp only [find_equivalents]
  rw [if_pos h]

theorem run_rule_transitive_empty (db : Store) (seed : String) (m : ℤ) (t : ℚ)
    (v : List String) (h : m < 1 ∨ seed ∈ v) :
    (run_rule db seed m t v "transitive").1 = [] := by
  unfold run_rule
  rw [if_pos rfl]
  simp only [apply_transitive_rule]
  simp only [traverse]
  rw [if_pos h]

/-- A candidate whose provenance is one of the rules that can still fire
after the transitive rule has consumed the seed vertex. -/
def good_rule (d : Derived) : Prop :=
  d.rule = "transitive" ∨ d.rule = "symmetric" ∨ d.rule = "inverse"

/-! ### The rule loop of infer_relations -/

theorem foldl_step_mem (db : Store) (seed : String) (m : ℤ) (t : ℚ) :
    ∀ (rs : List String) (acc : List Derived) (v : List String),
      ∀ d ∈ (rs.foldl (run_rules_step db seed m t) (acc, v)).1,
        d ∈ acc ∨ ∃ name ∈ rs, ∃ v2, d ∈ (run_rule db seed m t v2 name).1 := by
  intro rs
  induction rs with
  | nil =>
    intro acc v d hd
    rw [List.foldl_nil] at hd
    exact Or.inl hd
  | cons name rest ih =>
    intro acc v d hd
    rw [List.foldl_cons] at hd
    simp only [run_rules_step] at hd
    rcases ih _ _ d hd with h | h
    · rcases List.mem_append.mp h with h2 | h2
      · exact Or.inl h2
      · exact Or.inr ⟨name, List.mem_cons_self _ _, v, h2⟩
    · obtain ⟨name2, hn, v2, h2⟩ := h
      exact Or.inr ⟨name2, List.mem_cons_of_mem _ hn, v2, h2⟩

theorem foldl_step_good (db : Store) (seed : String) (m : ℤ) (t : ℚ) :
    ∀ (rs : List String) (acc : List Derived) (v : List String),
      (m < 1 ∨ seed ∈ v) → (∀ a ∈ acc, good_rule a) →
      ∀ d ∈ (rs.foldl (run_rules_step db seed m t) (acc, v)).1, good_rule d := by
  intro rs
  induction rs with
  | nil =>
    intro acc v hv hacc d hd
    rw [List.foldl_nil] at hd
    exact hacc d hd
  | cons name rest ih =>
    intro acc v hv hacc d hd
    rw [List.foldl_cons] at hd
    simp only [run_rules_step] at hd
    refine ih _ _ ?_ ?_ d hd
    · rcases hv with hv | hv
      · exact Or.inl hv
      · exact Or.inr (run_rule_vis db seed m t v name seed hv)
    · intro a ha
      rcases List.mem_append.mp ha with h2 | h2
      · exact hacc a h2
      · by_cases hn : name = "equivalence"
        · subst hn
          rw [run_rule_equivalence_empty db seed m t v hv] at h2
          simp at h2
        · rcases run_rule_cases db seed m t v name a h2 with
            ⟨_, ho⟩ | ⟨_, ho⟩ | ⟨he, _⟩ | ⟨_, ho⟩
          · exact Or.inl ho.1
          · obtain ⟨r, _, _, _, _, rfl⟩ := ho
            exact Or.inr (Or.inl rfl)
          · exact absurd he hn
          · obtain ⟨r, _, _, ty, _, _, rfl⟩ := ho
            exact Or.inr (Or.inr rfl)

theorem foldl_step_good_noeq (db : Store) (seed : String) (m : ℤ) (t : ℚ) :
    ∀ (rs : List String) (acc : List Derived) (v : List String),
      "equivalence" ∉ rs → (∀ a ∈ acc, good_rule a) →
      ∀ d ∈ (rs.foldl (run_rules_step db seed m t) (acc, v)).1, good_rule d := by
  intro rs
  induction rs with
  | nil =>
    intro acc v _ hacc d hd
    rw [List.foldl_nil] at hd
    exact hacc d hd
  | cons name rest ih =>
    intro acc v hne hacc d hd
    rw [List.foldl_cons] at hd
    simp only [run_rules_step] at hd
    refine ih _ _ (fun hc => hne (List.mem_cons_of_mem _ hc)) ?_ d hd
    intro a ha
    rcases List.mem_append.mp ha with h2 | h2
    · exact hacc a h2
    · rcases run_rule_cases db seed m t v name a h2 with
        ⟨_, ho⟩ | ⟨_, ho⟩ | ⟨he, _⟩ | ⟨_, ho⟩
      · exact Or.inl ho.1
      · obtain ⟨r, _, _, _, _, rfl⟩ := ho
        exact Or.inr (Or.inl rfl)
      · exact absurd (he ▸ List.mem_cons_self _ _ : "equivalence" ∈ name :: rest) hne
      · obtain ⟨r, _, _, ty, _, _, rfl⟩ := ho
        exact Or.inr (Or.inr rfl)

/-- Every candidate of the final result comes from one of the selected
rule names, run at some intermediate state of the shared visited set. -/
theorem mem_infer (db : Store) (seed : String) (rules : Option (List String))
    (m : ℤ) (t : ℚ) (d : Derived)
    (hd : d ∈ infer_relations db seed rules m t) :
    ∃ name ∈ rules.getD reasoning_rule_names, ∃ v2,
      d ∈ (run_rule db seed m t v2 name).1 := by
  simp only [infer_relations] at hd
  have h2 := dedup_and_rank_sub _ d hd
  rcases foldl_step_mem db seed m t (rules.getD reasoning_rule_names) [] [] d h2 with h | h
  · simp at h
  · exact h

/-! ### The instrumented traversals erase to the engine traversals -/

theorem traverseP_edges_erase
    (recP : String → ℤ → ℚ → List TermRelation → TStateP → TStateP)
    (rec2 : String → ℤ → ℚ → TState → TState) (seed : String) (t : ℚ)
    (hrec : ∀ c dep a p s, eraseP (recP c dep a p s) = rec2 c dep a (eraseP s)) :
    ∀ rels dep acc path st,
      eraseP (traverseP_edges recP seed t rels dep acc path st) =
        traverse_edges rec2 seed t rels dep acc (eraseP st) := by
  intro rels
  induction rels with
  | nil =>
    intro dep acc path st
    simp only [traverseP_edges, traverse_edges]
  | cons rel rest ih =>
    intro dep acc path st
    simp only [traverseP_edges, traverse_edges]
    rw [ih, hrec]
    by_cases hc : t ≤ acc * rel.confidence * CONFIDENCE_DECAY
    · rw [if_pos hc, if_pos hc]
      simp [eraseP]
    · rw [if_neg hc, if_neg hc]

theorem traverseP_erase (db : Store) (seed : String) (m : ℤ) (t : ℚ) :
    ∀ fuel c dep acc path st,
      eraseP (traverseP db seed m t fuel c dep acc path st) =
        traverse db seed m t fuel c dep acc (eraseP st) := by
  intro fuel
  induction fuel with
  | zero =>
    intro c dep acc path st
    simp only [traverseP, traverse]
  | succ n ih =>
    intro c dep acc path st
    simp only [traverseP, traverse]
    by_cases hg : m < dep ∨ c ∈ st.visited
    · rw [if_pos hg, if_pos (show m < dep ∨ c ∈ (eraseP st).visited from hg)]
    · rw [if_neg hg, if_neg (show ¬(m < dep ∨ c ∈ (eraseP st).visited) from hg)]
      exact traverseP_edges_erase (traverseP db seed m t n) (traverse db seed m t n)
        seed t (fun c2 dep2 a2 p2 s2 => ih c2 dep2 a2 p2 s2)
        (outgoingIn db c transitive_relations) dep acc path
        ⟨c :: st.visited, st.inferred⟩

theorem find_equivalentsP_edges_erase
    (recP : String → ℤ → ℚ → List TermRelation → TStateP → TStateP)
    (rec2 : String → ℤ → ℚ → TState → TState) (seed : String) (t : ℚ)
    (hrec : ∀ c dep a p s, eraseP (recP c dep a p s) = rec2 c dep a (eraseP s)) :
    ∀ rels dep acc path st,
      eraseP (find_equivalentsP_edges recP seed t rels dep acc path st) =
        find_equivalents_edges rec2 seed t rels dep acc (eraseP st) := by
  intro rels
  induction rels with
  | nil =>
    intro dep acc path st
    simp only [find_equivalentsP_edges, find_equivalents_edges]
  | cons rel rest ih =>
    intro dep acc path st
    simp only [find_equivalentsP_edges, find_equivalents_edges]
    rw [ih, hrec]
    by_cases hc : rel.target_term_id ≠ seed ∧
        t ≤ acc * rel.confidence * CONFIDENCE_DECAY
    · rw [if_pos hc, if_pos hc]
      simp [eraseP]
    · rw [if_neg hc, if_neg hc]

theorem find_equivalentsP_erase (db : Store) (seed : String) (m : ℤ) (t : ℚ) :
    ∀ fuel c dep acc path st,
      eraseP (find_equivalentsP db seed m t fuel c dep acc path st) =
        find_equivalents db seed m t fuel c dep acc (eraseP st) := by
  intro fuel
  induction fuel with
  | zero =>
    intro c dep acc path st
    simp only [find_equivalentsP, find_equivalents]
  | succ n ih =>
    intro c dep acc path st
    simp only [find_equivalentsP, find_equivalents]
    by_cases hg : m < dep ∨ c ∈ st.visited
    · rw [if_pos hg, if_pos (show m < dep ∨ c ∈ (eraseP st).visited from hg)]
    · rw [if_neg hg, if_neg (show ¬(m < dep ∨ c ∈ (eraseP st).visited) from hg)]
      exact find_equivalentsP_edges_erase (find_equivalentsP db seed m t n)
        (find_equivalents db seed m t n)
        seed t (fun c2 dep2 a2 p2 s2 => ih c2 dep2 a2 p2 s2)
        (outgoingIn db c ["equivalent"]) dep acc path
        ⟨c :: st.visited, st.inferred⟩

/-! ### Confidence bounds along the recorded derivation paths -/

/-- Invariant of the accumulated confidence relative to the path walked so
far: it is a probability-like value that is at most every edge confidence
on the path (all path edges being stored edges). -/
def PathOk (db : Store) (acc : ℚ) (path : List TermRelation) : Prop :=
  0 ≤ acc ∧ acc ≤ 1 ∧ ∀ r ∈ path, r ∈ db ∧ acc ≤ r.confidence

/-- What holds of every emitted (candidate, path) pair: the path is a
nonempty list of stored edges and the reported confidence is the 3-decimal
rounding of a pre-rounding value bounded by every edge on the path. -/
def GoodPair (db : Store) (p : Derived × List TermRelation) : Prop :=
  p.2 ≠ [] ∧ ∃ nc : ℚ, p.1.confidence = round3 nc ∧ 0 ≤ nc ∧
    ∀ r ∈ p.2, r ∈ db ∧ nc ≤ r.confidence

theorem PathOk_step (db : Store) (acc : ℚ) (path : List TermRelation)
    (rel : TermRelation) (hdb1 : 0 ≤ rel.confidence) (hdb2 : rel.confidence ≤ 1)
    (hrel : rel ∈ db) (h : PathOk db acc path) :
    PathOk db (acc * rel.confidence * CONFIDENCE_DECAY) (path ++ [rel]) := by
  obtain ⟨h0, h1, hp⟩ := h
  have hd0 : (0 : ℚ) ≤ CONFIDENCE_DECAY := by norm_num [CONFIDENCE_DECAY]
  have hd1 : CONFIDENCE_DECAY ≤ 1 := by norm_num [CONFIDENCE_DECAY]
  refine ⟨by positivity, ?_, ?_⟩
  · exact mul_le_one₀ (mul_le_one₀ h1 hdb1 hdb2) hd0 hd1
  · intro r hr
    rcases List.mem_append.mp hr with h2 | h2
    · obtain ⟨hrdb, hrc⟩ := hp r h2
      refine ⟨hrdb, ?_⟩
      have h3 : rel.confidence * CONFIDENCE_DECAY ≤ 1 := mul_le_one₀ hdb2 hd0 hd1
      have h4 : 0 ≤ rel.confidence * CONFIDENCE_DECAY := mul_nonneg hdb1 hd0
      nlinarith
    · simp only [List.mem_singleton] at h2
      subst h2
      refine ⟨hrel, ?_⟩
      have h5 : acc * CONFIDENCE_DECAY ≤ 1 := mul_le_one₀ h1 hd0 hd1
      have h6 : 0 ≤ acc * CONFIDENCE_DECAY := mul_nonneg h0 hd0
      nlinarith

theorem traverseP_edges_good (db : Store) (seed : String) (t : ℚ)
    (recP : String → ℤ → ℚ → List TermRelation → TStateP → TStateP)
    (hrec : ∀ c dep a p s, PathOk db a p →
      (∀ q ∈ s.inferred, GoodPair db q) →
      ∀ q ∈ (recP c dep a p s).inferred, GoodPair db q)
    (hdb : ∀ r ∈ db, 0 ≤ r.confidence ∧ r.confidence ≤ 1) :
    ∀ rels dep acc path st, (∀ r ∈ rels, r ∈ db) → PathOk db acc path →
      (∀ q ∈ st.inferred, GoodPair db q) →
      ∀ q ∈ (traverseP_edges recP seed t rels dep acc path st).inferred,
        GoodPair db q := by
  intro rels
  induction rels with
  | nil =>
    intro dep acc path st _ _ hst q hq
    simp only [traverseP_edges] at hq
    exact hst q hq
  | cons rel rest ih =>
    intro dep acc path st hrels hacc hst q hq
    simp only [traverseP_edges] at hq
    have hrel : rel ∈ db := hrels rel (List.mem_cons_self _ _)
    have hpath2 : PathOk db (acc * rel.confidence * CONFIDENCE_DECAY)
        (path ++ [rel]) :=
      PathOk_step db acc path rel (hdb rel hrel).1 (hdb rel hrel).2 hrel hacc
    have hst1 : ∀ q2 ∈ (if t ≤ acc * rel.confidence * CONFIDENCE_DECAY then
        (⟨st.visited, st.inferred ++
          [(⟨seed, rel.target_term_id, rel.relation_type,
              round3 (acc * rel.confidence * CONFIDENCE_DECAY),
              "transitive", dep⟩, path ++ [rel])]⟩ : TStateP)
        else st).inferred, GoodPair db q2 := by
      by_cases hc : t ≤ acc * rel.confidence * CONFIDENCE_DECAY
      · rw [if_pos hc]
        intro q2 hq2
        rcases List.mem_append.mp hq2 with h2 | h2
        · exact hst q2 h2
        · simp only [List.mem_singleton] at h2
          subst h2
          exact ⟨by simp, acc * rel.confidence * CONFIDENCE_DECAY, rfl,
            hpath2.1, hpath2.2.2⟩
      · rw [if_neg hc]
        exact hst
    exact ih dep acc path _ (fun r hr => hrels r (List.mem_cons_of_mem _ hr))
      hacc (fun q2 hq2 => hrec _ _ _ _ _ hpath2 hst1 q2 hq2) q hq

theorem traverseP_good (db : Store) (seed : String) (m : ℤ) (t : ℚ)
    (hdb : ∀ r ∈ db, 0 ≤ r.confidence ∧ r.confidence ≤ 1) :
    ∀ fuel c dep acc path st, PathOk db acc path →
      (∀ q ∈ st.inferred, GoodPair db q) →
      ∀ q ∈ (traverseP db seed m t fuel c dep acc path st).inferred,
        GoodPair db q := by
  intro fuel
  induction fuel with
  | zero =>
    intro c dep acc path st _ hst q hq
    simp only [traverseP] at hq
    exact hst q hq
  | succ n ih =>
    intro c dep acc path st hacc hst q hq
    simp only [traverseP] at hq
    split at hq
    · exact hst q hq
    · exact traverseP_edges_good db seed t (traverseP db seed m t n)
        (fun c2 dep2 a2 p2 s2 => ih c2 dep2 a2 p2 s2) hdb
        (outgoingIn db c transitive_relations) dep acc path
        ⟨c :: st.visited, st.inferred⟩
        (fun r hr => (List.mem_filter.mp hr).1) hacc hst q hq

theorem find_equivalentsP_edges_good (db : Store) (seed : String) (t : ℚ)
    (recP : String → ℤ → ℚ → List TermRelation → TStateP → TStateP)
    (hrec : ∀ c dep a p s, PathOk db a p →
      (∀ q ∈ s.inferred, GoodPair db q) →
      ∀ q ∈ (recP c dep a p s).inferred, GoodPair db q)
    (hdb : ∀ r ∈ db, 0 ≤ r.confidence ∧ r.confidence ≤ 1) :
    ∀ rels dep acc path st, (∀ r ∈ rels, r ∈ db) → PathOk db acc path →
      (∀ q ∈ st.inferred, GoodPair db q) →
      ∀ q ∈ (find_equivalentsP_edges recP seed t rels dep acc path st).inferred,
        GoodPair db q := by
  intro rels
  induction rels with
  | nil =>
    intro dep acc path st _ _ hst q hq
    simp only [find_equivalentsP_edges] at hq
    exact hst q hq
  | cons rel rest ih =>
    intro dep acc path st hrels hacc hst q hq
    simp only [find_equivalentsP_edges] at hq
    have hrel : rel ∈ db := hrels rel (List.mem_cons_self _ _)
    have hpath2 : PathOk db (acc * rel.confidence * CONFIDENCE_DECAY)
        (path ++ [rel]) :=
      PathOk_step db acc path rel (hdb rel hrel).1 (hdb rel hrel).2 hrel hacc
    have hst1 : ∀ q2 ∈ (if rel.target_term_id ≠ seed ∧
        t ≤ acc * rel.confidence * CONFIDENCE_DECAY then
        (⟨st.visited, st.inferred ++
          [(⟨seed, rel.target_term_id, "equivalent",
              round3 (acc * rel.confidence * CONFIDENCE_DECAY),
              "equivalence", dep⟩, path ++ [rel])]⟩ : TStateP)
        else st).inferred, GoodPair db q2 := by
      by_cases hc : rel.target_term_id ≠ seed ∧
          t ≤ acc * rel.confidence * CONFIDENCE_DECAY
      · rw [if_pos hc]
        intro q2 hq2
        rcases List.mem_append.mp hq2 with h2 | h2
        · exact hst q2 h2
        · simp only [List.mem_singleton] at h2
          subst h2
          exact ⟨by simp, acc * rel.confidence * CONFIDENCE_DECAY, rfl,
            hpath2.1, hpath2.2.2⟩
      · rw [if_neg hc]
        exact hst
    exact ih dep acc path _ (fun r hr => hrels r (List.mem_cons_of_mem _ hr))
      hacc (fun q2 hq2 => hrec _ _ _ _ _ hpath2 hst1 q2 hq2) q hq

theorem find_equivalentsP_good (db : Store) (seed : String) (m : ℤ) (t : ℚ)
    (hdb : ∀ r ∈ db, 0 ≤ r.confidence ∧ r.confidence ≤ 1) :
    ∀ fuel c dep acc path st, PathOk db acc path →
      (∀ q ∈ st.inferred, GoodPair db q) →
      ∀ q ∈ (find_equivalentsP db seed m t fuel c dep acc path st).inferred,
        GoodPair db q := by
  intro fuel
  induction fuel with
  | zero =>
    intro c dep acc path st _ hst q hq
    simp only [find_equivalentsP] at hq
    exact hst q hq
  | succ n ih =>
    intro c dep acc path st hacc hst q hq
    simp only [find_equivalentsP] at hq
    split at hq
    · exact hst q hq
    · exact find_equivalentsP_edges_good db seed t (find_equivalentsP db seed m t n)
        (fun c2 dep2 a2 p2 s2 => ih c2 dep2 a2 p2 s2) hdb
        (outgoingIn db c ["equivalent"]) dep acc path
        ⟨c :: st.visited, st.inferred⟩
        (fun r hr => (List.mem_filter.mp hr).1) hacc hst q hq

/-! ### Claims -/

unseal Rat.add Rat.mul Rat.inv Rat.sub in
/-- Claim C1: the spec mandates that `infer` equal the Deduplicator/Ranker
applied to the concatenation of the candidates of each selected rule, each in
isolation, each rule with its own visited set.  The code instead shares one
visited set across rules: on the store `A --equivalent(0.9)--> B`, running
`infer(A, [transitive, equivalence], 3, 0.5)` returns nothing, because the
transitive rule marks `A` visited before the equivalence rule runs, while
the mandated per-rule-isolated computation returns the candidate
`(A, B, equivalent, 0.81, equivalence, 1)`. -/
theorem claim_C1_code_divergence :
    infer_relations [⟨"A", "B", "equivalent", 9 / 10⟩] "A"
        (some ["transitive", "equivalence"]) 3 (1 / 2) = [] ∧
    dedup_and_rank
        ((apply_transitive_rule [⟨"A", "B", "equivalent", 9 / 10⟩] "A" 3 (1 / 2) []).1 ++
          (apply_equivalence_rule [⟨"A", "B", "equivalent", 9 / 10⟩] "A" 3 (1 / 2) []).1) =
      [⟨"A", "B", "equivalent", 81 / 100, "equivalence", 1⟩] := by decide

unseal Rat.add Rat.mul Rat.inv Rat.sub in
/-- Claim C2, counterexample: with threshold 0.6561 (inside [0,1]) on the
store `A --broader(0.9)--> B --broader(0.9)--> C`, the depth-2 candidate is
emitted because its pre-rounding confidence 0.6561 passes the filter, but
it is returned carrying the rounded confidence 0.656 < 0.6561, so a
returned candidate does have confidence strictly below the threshold. -/
theorem claim_C2_counterexample :
    ((0 : ℚ) ≤ 6561 / 10000 ∧ (6561 / 10000 : ℚ) ≤ 1) ∧
    (⟨"A", "C", "broader", 656 / 1000, "transitive", 2⟩ : Derived) ∈
      infer_relations [⟨"A", "B", "broader", 9 / 10⟩, ⟨"B", "C", "broader", 9 / 10⟩]
        "A" (some ["transitive"]) 3 (6561 / 10000) ∧
    ((656 / 1000 : ℚ) < 6561 / 10000) := by decide

/-- Claim C2 (amended): the threshold is checked against the pre-rounding
confidence, and the transitive/equivalence rules report the value rounded
to 3 decimals, so every candidate returned by infer has confidence at
least `threshold - 1/2000`; it can undershoot the threshold only by the
rounding slack. -/
theorem claim_C2_amended (db : Store) (seed : String)
    (rules : Option (List String)) (m : ℤ) (t : ℚ)
    (_ht0 : 0 ≤ t) (_ht1 : t ≤ 1) :
    ∀ d ∈ infer_relations db seed rules m t, t - 1 / 2000 ≤ d.confidence := by
  intro d hd
  obtain ⟨name, hn, v2, h2⟩ := mem_infer db seed rules m t d hd
  rcases run_rule_cases db seed m t v2 name d h2 with
    ⟨_, ho⟩ | ⟨_, ho⟩ | ⟨_, ho⟩ | ⟨_, ho⟩
  · obtain ⟨_, _, nc, hnc, hconf⟩ := ho
    have hb := (round3_bounds nc).1
    rw [hconf]
    linarith
  · obtain ⟨r, _, _, _, hth, rfl⟩ := ho
    show t - 1 / 2000 ≤ r.confidence
    linarith
  · obtain ⟨_, _, _, _, nc, hnc, hconf⟩ := ho
    have hb := (round3_bounds nc).1
    rw [hconf]
    linarith
  · obtain ⟨r, _, _, ty, _, hth, rfl⟩ := ho
    show t - 1 / 2000 ≤ r.confidence
    linarith

unseal Rat.add Rat.mul Rat.inv Rat.sub in
/-- Claim C2, witness for the amended theorem at a concrete input. -/
theorem claim_C2_witness :
    ((0 : ℚ) ≤ 3 / 4) ∧ ((3 / 4 : ℚ) ≤ 1) ∧
    (⟨"B", "A", "narrower", 9 / 10, "inverse", 1⟩ : Derived) ∈
      infer_relations [⟨"A", "B", "broader", 9 / 10⟩] "B" (some ["inverse"]) 3 (3 / 4) ∧
    (3 / 4 - 1 / 2000 : ℚ) ≤
      (⟨"B", "A", "narrower", 9 / 10, "inverse", 1⟩ : Derived).confidence :=
  ⟨by norm_num, by norm_num, by decide,
    claim_C2_amended [⟨"A", "B", "broader", 9 / 10⟩] "B" (some ["inverse"]) 3 (3 / 4)
      (by norm_num) (by norm_num) _ (by decide)⟩

unseal Rat.add Rat.mul Rat.inv Rat.sub in
/-- Claim C3, counterexample: the claimed depth-2 candidate with confidence
exactly 0.6561 is not returned; the engine rounds the stored confidence to
3 decimals. -/
theorem claim_C3_counterexample :
    (⟨"A", "C", "broader", 6561 / 10000, "transitive", 2⟩ : Derived) ∉
      infer_relations [⟨"A", "B", "broader", 9 / 10⟩, ⟨"B", "C", "broader", 9 / 10⟩]
        "A" (some ["transitive"]) 3 (1 / 2) := by decide

unseal Rat.add Rat.mul Rat.inv Rat.sub in
/-- Claim C3 (amended): on the store `A --broader(0.9)--> B --broader(0.9)--> C`,
`infer(A, [transitive], 3, 0.5)` returns exactly the candidate
`(A, B, broader, 0.81, transitive, 1)` followed by
`(A, C, broader, 0.656, transitive, 2)` (0.6561 rounded to 3 decimals);
in particular both claimed candidates are present up to rounding and
there is no depth-3 candidate. -/
theorem claim_C3_amended :
    infer_relations [⟨"A", "B", "broader", 9 / 10⟩, ⟨"B", "C", "broader", 9 / 10⟩]
        "A" (some ["transitive"]) 3 (1 / 2) =
      [⟨"A", "B", "broader", 81 / 100, "transitive", 1⟩,
       ⟨"A", "C", "broader", 656 / 1000, "transitive", 2⟩] := by decide

unseal Rat.add Rat.mul Rat.inv Rat.sub in
/-- Claim C4, counterexample: the engine performs no argument validation.
A call with `maxDepth = -1` and a call with `confidenceThreshold = -1`
both read the store and return a normal candidate list instead of being
rejected with an invalid-argument signal. -/
theorem claim_C4_counterexample :
    infer_relations [⟨"A", "B", "broader", 9 / 10⟩] "B" (some ["inverse"]) (-1) (1 / 2) =
      [⟨"B", "A", "narrower", 9 / 10, "inverse", 1⟩] ∧
    infer_relations [⟨"A", "B", "broader", 9 / 10⟩] "B" (some ["inverse"]) 3 (-1) =
      [⟨"B", "A", "narrower", 9 / 10, "inverse", 1⟩] := by decide

/-- Claim C4 (amended): pathological inputs are not rejected; the call
proceeds normally.  When `maxDepth < 1` (in particular when it is
negative) the recursive rules simply traverse nothing, so every returned
candidate comes from the symmetric or inverse rule; any threshold value,
inside `[0,1]` or not, is used as given. -/
theorem claim_C4_amended (db : Store) (seed : String)
    (rules : Option (List String)) (m : ℤ) (t : ℚ) (h : m < 1) :
    ∀ d ∈ infer_relations db seed rules m t,
      d.rule = "symmetric" ∨ d.rule = "inverse" := by
  intro d hd
  obtain ⟨name, hn, v2, h2⟩ := mem_infer db seed rules m t d hd
  rcases run_rule_cases db seed m t v2 name d h2 with
    ⟨he, _⟩ | ⟨_, ho⟩ | ⟨he, _⟩ | ⟨_, ho⟩
  · subst he
    rw [run_rule_transitive_empty db seed m t v2 (Or.inl h)] at h2
    simp at h2
  · obtain ⟨r, _, _, _, _, rfl⟩ := ho
    exact Or.inl rfl
  · subst he
    rw [run_rule_equivalence_empty db seed m t v2 (Or.inl h)] at h2
    simp at h2
  · obtain ⟨r, _, _, ty, _, _, rfl⟩ := ho
    exact Or.inr rfl

unseal Rat.add Rat.mul Rat.inv Rat.sub in
/-- Claim C4, witness for the amended theorem at a concrete input. -/
theorem claim_C4_witness :
    ((-1 : ℤ) < 1) ∧
    (⟨"B", "A", "narrower", 9 / 10, "inverse", 1⟩ : Derived) ∈
      infer_relations [⟨"A", "B", "broader", 9 / 10⟩] "B"
        (some ["symmetric", "inverse"]) (-1) (1 / 2) ∧
    ((⟨"B", "A", "narrower", 9 / 10, "inverse", 1⟩ : Derived).rule = "symmetric" ∨
      (⟨"B", "A", "narrower", 9 / 10, "inverse", 1⟩ : Derived).rule = "inverse") :=
  ⟨by decide, by decide,
    claim_C4_amended [⟨"A", "B", "broader", 9 / 10⟩] "B"
      (some ["symmetric", "inverse"]) (-1) (1 / 2) (by decide) _ (by decide)⟩

unseal Rat.add Rat.mul Rat.inv Rat.sub in
/-- Claim C5, counterexample: all stored confidences lie in [0,1], yet the
returned derived confidence exceeds the confidence of the single stored
edge it was built from, because the engine rounds 0.000504 up to 0.001:
rounding can push a derived confidence above the stored edge. -/
theorem claim_C5_counterexample :
    ((0 : ℚ) ≤ 56 / 100000 ∧ (56 / 100000 : ℚ) ≤ 1) ∧
    infer_relations [⟨"A", "B", "broader", 56 / 100000⟩] "A"
        (some ["transitive"]) 3 0 =
      [⟨"A", "B", "broader", 1 / 1000, "transitive", 1⟩] ∧
    ((56 / 100000 : ℚ) < 1 / 1000) := by decide

/-- Claim C5 (amended): assuming every stored confidence lies in [0,1],
every candidate of the transitive and equivalence rules carries the
3-decimal rounding of a pre-rounding value that is at most the confidence
of every stored edge on its derivation path (recorded by the instrumented
traversals, which provably erase to the engine traversals), so the
reported confidence exceeds the confidence of no path edge by more than
1/2000; symmetric and inverse candidates copy a stored confidence
exactly. -/
theorem claim_C5_amended (db : Store) (seed : String) (m : ℤ) (t : ℚ)
    (hdb : ∀ r ∈ db, 0 ≤ r.confidence ∧ r.confidence ≤ 1) :
    ((traverseP db seed m t (m.toNat + 1) seed 1 1 [] ⟨[], []⟩).inferred.map
        Prod.fst = (apply_transitive_rule db seed m t []).1) ∧
    (∀ p ∈ (traverseP db seed m t (m.toNat + 1) seed 1 1 [] ⟨[], []⟩).inferred,
      p.2 ≠ [] ∧ ∃ nc : ℚ, p.1.confidence = round3 nc ∧
        ∀ r ∈ p.2, r ∈ db ∧ nc ≤ r.confidence ∧
          p.1.confidence ≤ r.confidence + 1 / 2000) ∧
    ((find_equivalentsP db seed m t (m.toNat + 1) seed 1 1 [] ⟨[], []⟩).inferred.map
        Prod.fst = (apply_equivalence_rule db seed m t []).1) ∧
    (∀ p ∈ (find_equivalentsP db seed m t (m.toNat + 1) seed 1 1 [] ⟨[], []⟩).inferred,
      p.2 ≠ [] ∧ ∃ nc : ℚ, p.1.confidence = round3 nc ∧
        ∀ r ∈ p.2, r ∈ db ∧ nc ≤ r.confidence ∧
          p.1.confidence ≤ r.confidence + 1 / 2000) ∧
    (∀ d ∈ (apply_symmetric_rule db seed m t []).1,
      ∃ r ∈ db, d.confidence = r.confidence) ∧
    (∀ d ∈ (apply_inverse_rule db seed m t []).1,
      ∃ r ∈ db, d.confidence = r.confidence) := by
  have hpath0 : PathOk db 1 [] := ⟨by norm_num, le_refl 1, by simp⟩
  have hgood0 : ∀ q ∈ (⟨[], []⟩ : TStateP).inferred, GoodPair db q := by simp
  refine ⟨?_, ?_, ?_, ?_, ?_, ?_⟩
  · have h := traverseP_erase db seed m t (m.toNat + 1) seed 1 1 [] ⟨[], []⟩
    have h2 := congrArg TState.inferred h
    simp only [apply_transitive_rule]
    exact h2
  · intro p hp
    have hg := traverseP_good db seed m t hdb (m.toNat + 1) seed 1 1 [] ⟨[], []⟩
      hpath0 hgood0 p hp
    obtain ⟨hne, nc, hconf, hnc0, hall⟩ := hg
    refine ⟨hne, nc, hconf, fun r hr => ?_⟩
    obtain ⟨hrdb, hrle⟩ := hall r hr
    have hb := (round3_bounds nc).2
    refine ⟨hrdb, hrle, ?_⟩
    rw [hconf]
    linarith
  · have h := find_equivalentsP_erase db seed m t (m.toNat + 1) seed 1 1 [] ⟨[], []⟩
    have h2 := congrArg TState.inferred h
    simp only [apply_equivalence_rule]
    exact h2
  · intro p hp
    have hg := find_equivalentsP_good db seed m t hdb (m.toNat + 1) seed 1 1 []
      ⟨[], []⟩ hpath0 hgood0 p hp
    obtain ⟨hne, nc, hconf, hnc0, hall⟩ := hg
    refine ⟨hne, nc, hconf, fun r hr => ?_⟩
    obtain ⟨hrdb, hrle⟩ := hall r hr
    have hb := (round3_bounds nc).2
    refine ⟨hrdb, hrle, ?_⟩
    rw [hconf]
    linarith
  · intro d hd
    obtain ⟨r, hr, _, _, _, rfl⟩ := (apply_symmetric_mem db seed m t [] d).mp hd
    exact ⟨r, hr, rfl⟩
  · intro d hd
    obtain ⟨r, hr, _, ty, _, _, rfl⟩ := (apply_inverse_mem db seed m t [] d).mp hd
    exact ⟨r, hr, rfl⟩

unseal Rat.add Rat.mul Rat.inv Rat.sub in
/-- Claim C5, witness for the amended theorem at a concrete input: on the
one-edge store `A --broader(0.9)--> B` the instrumented transitive
traversal emits the candidate 0.81 with recorded path `[the edge]`, and
the erasure conjunct evaluates. -/
theorem claim_C5_witness :
    (∀ r ∈ ([⟨"A", "B", "broader", 9 / 10⟩] : Store),
      0 ≤ r.confidence ∧ r.confidence ≤ 1) ∧
    ((traverseP [⟨"A", "B", "broader", 9 / 10⟩] "A" 3 (1 / 2)
        ((3 : ℤ).toNat + 1) "A" 1 1 [] ⟨[], []⟩).inferred.map Prod.fst =
      (apply_transitive_rule [⟨"A", "B", "broader", 9 / 10⟩] "A" 3 (1 / 2) []).1) ∧
    (((⟨"A", "B", "broader", 81 / 100, "transitive", 1⟩ : Derived),
        ([⟨"A", "B", "broader", 9 / 10⟩] : List TermRelation)) ∈
      (traverseP [⟨"A", "B", "broader", 9 / 10⟩] "A" 3 (1 / 2)
        ((3 : ℤ).toNat + 1) "A" 1 1 [] ⟨[], []⟩).inferred) ∧
    (([⟨"A", "B", "broader", 9 / 10⟩] : List TermRelation) ≠ [] ∧
      ∃ nc : ℚ,
        (⟨"A", "B", "broader", 81 / 100, "transitive", 1⟩ : Derived).confidence =
          round3 nc ∧
        ∀ r ∈ ([⟨"A", "B", "broader", 9 / 10⟩] : List TermRelation),
          r ∈ ([⟨"A", "B", "broader", 9 / 10⟩] : Store) ∧ nc ≤ r.confidence ∧
            (⟨"A", "B", "broader", 81 / 100, "transitive", 1⟩ : Derived).confidence ≤
              r.confidence + 1 / 2000) :=
  ⟨by decide, (claim_C5_amended [⟨"A", "B", "broader", 9 / 10⟩] "A" 3 (1 / 2)
      (by decide)).1,
    by decide,
    (claim_C5_amended [⟨"A", "B", "broader", 9 / 10⟩] "A" 3 (1 / 2)
      (by decide)).2.1
      ((⟨"A", "B", "broader", 81 / 100, "transitive", 1⟩ : Derived),
        ([⟨"A", "B", "broader", 9 / 10⟩] : List TermRelation)) (by decide)⟩

/-- Claim C6: the Deduplicator/Ranker keeps exactly one entry per
(target, relationType) key occurring in its input, that entry is an input
candidate whose confidence dominates every input candidate with the same
key, and the output is sorted by confidence in descending order. -/
theorem claim_C6_dedup_rank_spec (l : List Derived) :
    ((dedup_and_rank l).map derivedKey).Nodup ∧
    (∀ k, k ∈ (dedup_and_rank l).map derivedKey ↔ k ∈ l.map derivedKey) ∧
    (∀ d ∈ dedup_and_rank l, d ∈ l ∧
      ∀ x ∈ l, derivedKey x = derivedKey d → x.confidence ≤ d.confidence) ∧
    (dedup_and_rank l).Pairwise fun a b => b.confidence ≤ a.confidence :=
  ⟨dedup_and_rank_keys_nodup l,
    fun k => ⟨dedup_and_rank_keys_sub l k, dedup_and_rank_keys_mem l k⟩,
    fun d hd => ⟨dedup_and_rank_sub l d hd, dedup_and_rank_max l d hd⟩,
    dedup_and_rank_sorted l⟩

unseal Rat.add Rat.mul Rat.inv Rat.sub in
/-- Claim C6, witness: two candidates with the same key (X, related) and
confidences 0.6 and 0.8 dedup to the single 0.8 entry, which dominates
the 0.6 input. -/
theorem claim_C6_witness :
    ((⟨"A", "X", "related", 4 / 5, "symmetric", 1⟩ : Derived) ∈
      dedup_and_rank [⟨"A", "X", "related", 3 / 5, "transitive", 1⟩,
        ⟨"A", "X", "related", 4 / 5, "symmetric", 1⟩]) ∧
    ((⟨"A", "X", "related", 3 / 5, "transitive", 1⟩ : Derived) ∈
      ([⟨"A", "X", "related", 3 / 5, "transitive", 1⟩,
        ⟨"A", "X", "related", 4 / 5, "symmetric", 1⟩] : List Derived)) ∧
    derivedKey (⟨"A", "X", "related", 3 / 5, "transitive", 1⟩ : Derived) =
      derivedKey (⟨"A", "X", "related", 4 / 5, "symmetric", 1⟩ : Derived) ∧
    (⟨"A", "X", "related", 3 / 5, "transitive", 1⟩ : Derived).confidence ≤
      (⟨"A", "X", "related", 4 / 5, "symmetric", 1⟩ : Derived).confidence :=
  ⟨by decide, by decide, by decide,
    ((claim_C6_dedup_rank_spec [⟨"A", "X", "related", 3 / 5, "transitive", 1⟩,
        ⟨"A", "X", "related", 4 / 5, "symmetric", 1⟩]).2.2.1 _
      (by decide)).2 _ (by decide) (by decide)⟩

unseal Rat.add Rat.mul Rat.inv Rat.sub in
/-- Claim C7, counterexample: with two duplicate stored edges
`A --broader--> B` at confidences 0.8 and 0.9, the candidate carrying the
0.8 confidence unchanged is not in the result of `infer(B, [inverse])`:
deduplication keeps only the 0.9 entry for the key (A, narrower). -/
theorem claim_C7_counterexample :
    ((⟨"A", "B", "broader", 4 / 5⟩ : TermRelation) ∈
      ([⟨"A", "B", "broader", 4 / 5⟩, ⟨"A", "B", "broader", 9 / 10⟩] : Store)) ∧
    ((1 : ℚ) / 2 ≤ 4 / 5) ∧
    (⟨"B", "A", "narrower", 4 / 5, "inverse", 1⟩ : Derived) ∉
      infer_relations [⟨"A", "B", "broader", 4 / 5⟩, ⟨"A", "B", "broader", 9 / 10⟩]
        "B" (some ["inverse"]) 3 (1 / 2) := by decide

/-- Claim C7 (amended): for every stored `A --broader--> B` with
confidence `c ≥ threshold`, `infer(B, [inverse])` contains a candidate
`(B, A, narrower, c2, inverse, 1)` with `c2 ≥ c`; `c2` equals `c` unless a
duplicate stored edge with the same endpoints and type carries a higher
confidence, in which case deduplication keeps that one. -/
theorem claim_C7_amended (db : Store) (A B : String) (c : ℚ) (m : ℤ) (t : ℚ)
    (hr : (⟨A, B, "broader", c⟩ : TermRelation) ∈ db) (hth : t ≤ c) :
    ∃ d ∈ infer_relations db B (some ["inverse"]) m t,
      d.source_term_id = B ∧ d.target_term_id = A ∧
      d.relation_type = "narrower" ∧ c ≤ d.confidence ∧
      d.rule = "inverse" ∧ d.depth = 1 := by
  have hitem : (⟨B, A, "narrower", c, "inverse", 1⟩ : Derived) ∈
      (run_rule db B m t [] "inverse").1 := by
    unfold run_rule
    rw [if_neg (by decide), if_neg (by decide), if_neg (by decide), if_pos rfl]
    exact (apply_inverse_mem db B m t [] _).mpr
      ⟨⟨A, B, "broader", c⟩, hr, rfl, "narrower", by simp [inverse_mapping], hth, rfl⟩
  have hfold : (⟨B, A, "narrower", c, "inverse", 1⟩ : Derived) ∈
      ((["inverse"] : List String).foldl (run_rules_step db B m t) ([], [])).1 := by
    rw [List.foldl_cons, List.foldl_nil]
    simp only [run_rules_step, List.nil_append]
    exact hitem
  obtain ⟨d, hd, hkey, hc2⟩ := dedup_and_rank_exists _ _ hfold
  have hshape : d.source_term_id = B ∧ d.rule = "inverse" ∧ d.depth = 1 := by
    have hdl := dedup_and_rank_sub _ d hd
    rcases foldl_step_mem db B m t ["inverse"] [] [] d hdl with h | ⟨name, hn, v2, h2⟩
    · simp at h
    · simp only [List.mem_singleton] at hn
      subst hn
      rcases run_rule_cases db B m t v2 "inverse" d h2 with
        ⟨he, _⟩ | ⟨he, _⟩ | ⟨he, _⟩ | ⟨_, ho⟩
      · exact absurd he (by decide)
      · exact absurd he (by decide)
      · exact absurd he (by decide)
      · obtain ⟨r, _, _, ty, _, _, rfl⟩ := ho
        exact ⟨rfl, rfl, rfl⟩
  refine ⟨d, ?_, hshape.1, ?_, ?_, hc2, hshape.2.1, hshape.2.2⟩
  · simp only [infer_relations, Option.getD_some]
    exact hd
  · exact congrArg Prod.fst hkey
  · exact congrArg Prod.snd hkey

unseal Rat.add Rat.mul Rat.inv Rat.sub in
/-- Claim C7, witness for the amended theorem at a concrete input. -/
theorem claim_C7_witness :
    ((⟨"A", "B", "broader", 9 / 10⟩ : TermRelation) ∈
      ([⟨"A", "B", "broader", 9 / 10⟩] : Store)) ∧
    ((1 : ℚ) / 2 ≤ 9 / 10) ∧
    ∃ d ∈ infer_relations [⟨"A", "B", "broader", 9 / 10⟩] "B"
        (some ["inverse"]) 3 (1 / 2),
      d.source_term_id = "B" ∧ d.target_term_id = "A" ∧
      d.relation_type = "narrower" ∧ (9 / 10 : ℚ) ≤ d.confidence ∧
      d.rule = "inverse" ∧ d.depth = 1 :=
  ⟨by decide, by decide,
    claim_C7_amended [⟨"A", "B", "broader", 9 / 10⟩] "A" "B" (9 / 10) 3 (1 / 2)
      (by decide) (by decide)⟩

/-- Claim C8: the result of `infer(A, [equivalence])` never contains a
candidate whose target is the seed `A` itself, whatever cycles of
equivalent edges pass through `A`. -/
theorem claim_C8_no_self_target (db : Store) (A : String) (m : ℤ) (t : ℚ) :
    ∀ d ∈ infer_relations db A (some ["equivalence"]) m t,
      d.target_term_id ≠ A := by
  intro d hd
  obtain ⟨name, hn, v2, h2⟩ := mem_infer db A (some ["equivalence"]) m t d hd
  simp only [Option.getD_some, List.mem_singleton] at hn
  subst hn
  rcases run_rule_cases db A m t v2 "equivalence" d h2 with
    ⟨he, _⟩ | ⟨he, _⟩ | ⟨_, ho⟩ | ⟨he, _⟩
  · exact absurd he (by decide)
  · exact absurd he (by decide)
  · exact ho.2.2.2.1
  · exact absurd he (by decide)

unseal Rat.add Rat.mul Rat.inv Rat.sub in
/-- Claim C8, witness at a concrete input with a cycle
`A --equivalent--> B --equivalent--> A`. -/
theorem claim_C8_witness :
    (⟨"A", "B", "equivalent", 18 / 25, "equivalence", 1⟩ : Derived) ∈
      infer_relations [⟨"A", "B", "equivalent", 4 / 5⟩, ⟨"B", "A", "equivalent", 4 / 5⟩]
        "A" (some ["equivalence"]) 3 (1 / 2) ∧
    (⟨"A", "B", "equivalent", 18 / 25, "equivalence", 1⟩ : Derived).target_term_id ≠ "A" :=
  ⟨by decide,
    claim_C8_no_self_target [⟨"A", "B", "equivalent", 4 / 5⟩, ⟨"B", "A", "equivalent", 4 / 5⟩]
      "A" 3 (1 / 2) _ (by decide)⟩

/-- Claim C9: when the selected rule list runs "transitive" before any
occurrence of "equivalence" (as the default list does), the equivalence
rule contributes nothing: either `maxDepth < 1` blocks both recursive
rules, or the transitive traversal has already put the seed into the
shared visited set, so every returned candidate carries rule
"transitive", "symmetric" or "inverse". -/
theorem claim_C9_equivalence_starved (db : Store) (seed : String) (m : ℤ) (t : ℚ)
    (r1 r2 : List String) (h1 : "equivalence" ∉ r1) :
    ∀ d ∈ infer_relations db seed (some (r1 ++ "transitive" :: r2)) m t,
      d.rule = "transitive" ∨ d.rule = "symmetric" ∨ d.rule = "inverse" := by
  intro d hd
  simp only [infer_relations, Option.getD_some] at hd
  have hsub := dedup_and_rank_sub _ d hd
  rw [List.foldl_append, List.foldl_cons] at hsub
  have hout : ∀ a ∈ (run_rule db seed m t
      (r1.foldl (run_rules_step db seed m t) ([], [])).2 "transitive").1,
      trans_out seed t a := by
    unfold run_rule
    rw [if_pos rfl]
    exact apply_transitive_out db seed m t _
  refine foldl_step_good db seed m t r2
    ((r1.foldl (run_rules_step db seed m t) ([], [])).1 ++
      (run_rule db seed m t
        (r1.foldl (run_rules_step db seed m t) ([], [])).2 "transitive").1)
    ((run_rule db seed m t
      (r1.foldl (run_rules_step db seed m t) ([], [])).2 "transitive").2)
    ?_ ?_ d ?_
  · by_cases hm : m < 1
    · exact Or.inl hm
    · exact Or.inr (run_rule_transitive_seed db seed m t _ (by omega))
  · intro a ha
    rcases List.mem_append.mp ha with h2 | h2
    · exact foldl_step_good_noeq db seed m t r1 [] [] h1 (by simp) a h2
    · exact Or.inl (hout a h2).1
  · exact hsub

unseal Rat.add Rat.mul Rat.inv Rat.sub in
/-- Claim C9, witness at a concrete input where the transitive rule then
the equivalence rule run. -/
theorem claim_C9_witness :
    ("equivalence" ∉ ([] : List String)) ∧
    (⟨"A", "B", "broader", 81 / 100, "transitive", 1⟩ : Derived) ∈
      infer_relations [⟨"A", "B", "broader", 9 / 10⟩] "A"
        (some (([] : List String) ++ "transitive" :: ["equivalence"])) 3 (1 / 2) ∧
    ((⟨"A", "B", "broader", 81 / 100, "transitive", 1⟩ : Derived).rule = "transitive" ∨
      (⟨"A", "B", "broader", 81 / 100, "transitive", 1⟩ : Derived).rule = "symmetric" ∨
      (⟨"A", "B", "broader", 81 / 100, "transitive", 1⟩ : Derived).rule = "inverse") :=
  ⟨by decide, by decide,
    claim_C9_equivalence_starved [⟨"A", "B", "broader", 9 / 10⟩] "A" 3 (1 / 2) [] ["equivalence"]
      (by decide) _ (by decide)⟩

/-- Claim C10: a stored self-loop `A --equivalent--> A` or
`A --related--> A` with confidence at or above the threshold makes
`infer(A, [symmetric])` return a candidate whose target is the seed `A`
itself: the no-self-loop guard exists only in the equivalence rule. -/
theorem claim_C10_symmetric_self_loop (db : Store) (A ty : String) (c : ℚ) (m : ℤ) (t : ℚ)
    (hr : (⟨A, A, ty, c⟩ : TermRelation) ∈ db)
    (hty : ty = "equivalent" ∨ ty = "related") (hth : t ≤ c) :
    ∃ d ∈ infer_relations db A (some ["symmetric"]) m t,
      d.target_term_id = A ∧ d.rule = "symmetric" ∧ d.depth = 1 := by
  have hitem : (⟨A, A, ty, c, "symmetric", 1⟩ : Derived) ∈
      (run_rule db A m t [] "symmetric").1 := by
    unfold run_rule
    rw [if_neg (by decide), if_pos rfl]
    refine (apply_symmetric_mem db A m t [] _).mpr
      ⟨⟨A, A, ty, c⟩, hr, rfl, ?_, hth, rfl⟩
    rcases hty with h | h <;> simp [symmetric_relations, h]
  have hfold : (⟨A, A, ty, c, "symmetric", 1⟩ : Derived) ∈
      ((["symmetric"] : List String).foldl (run_rules_step db A m t) ([], [])).1 := by
    rw [List.foldl_cons, List.foldl_nil]
    simp only [run_rules_step, List.nil_append]
    exact hitem
  obtain ⟨d, hd, hkey, _⟩ := dedup_and_rank_exists _ _ hfold
  have hshape : d.rule = "symmetric" ∧ d.depth = 1 := by
    have hdl := dedup_and_rank_sub _ d hd
    rcases foldl_step_mem db A m t ["symmetric"] [] [] d hdl with h | ⟨name, hn, v2, h2⟩
    · simp at h
    · simp only [List.mem_singleton] at hn
      subst hn
      rcases run_rule_cases db A m t v2 "symmetric" d h2 with
        ⟨he, _⟩ | ⟨_, ho⟩ | ⟨he, _⟩ | ⟨he, _⟩
      · exact absurd he (by decide)
      · obtain ⟨r, _, _, _, _, rfl⟩ := ho
        exact ⟨rfl, rfl⟩
      · exact absurd he (by decide)
      · exact absurd he (by decide)
  refine ⟨d, ?_, congrArg Prod.fst hkey, hshape.1, hshape.2⟩
  simp only [infer_relations, Option.getD_some]
  exact hd

unseal Rat.add Rat.mul Rat.inv Rat.sub in
/-- Claim C10, witness at a concrete self-loop store. -/
theorem claim_C10_witness :
    ((⟨"A", "A", "related", 9 / 10⟩ : TermRelation) ∈
      ([⟨"A", "A", "related", 9 / 10⟩] : Store)) ∧
    ("related" = "equivalent" ∨ "related" = "related") ∧
    ((1 : ℚ) / 2 ≤ 9 / 10) ∧
    ∃ d ∈ infer_relations [⟨"A", "A", "related", 9 / 10⟩] "A"
        (some ["symmetric"]) 3 (1 / 2),
      d.target_term_id = "A" ∧ d.rule = "symmetric" ∧ d.depth = 1 :=
  ⟨by decide, by decide, by decide,
    claim_C10_symmetric_self_loop [⟨"A", "A", "related", 9 / 10⟩] "A" "related" (9 / 10) 3 (1 / 2)
      (by decide) (by decide) (by decide)⟩

end Lexikon
